import Mathlib

/-
  Verification of the indexed min-heap core of the repository.

  The heap implementation is heap-uint32.c (concatenated into
  src/data-structures/dll/dll-test.c, second document): a generic
  dynamically allocated min heap of (priority, element) pairs with a
  side-index hash table mapping each element byte-pattern to its current
  array slot.  Priorities are modelled as Int with the user comparator
  cmp_pty fixed to the standard integer comparison (the C code delegates
  comparison to a user callback returning negative/zero/positive);
  elements are modelled as Nat (an element's identity is its byte
  pattern, so distinct byte patterns become distinct naturals).

  The side-index table ht-div-uint32.c is not under src/ (only analogous
  declarations, ht-divchn.h in src/unnamed/part_001, and its callers are
  present), so its three operations used by the heap are modelled from
  the spec's operation contract (spec section 4.1): insert is an upsert
  that overwrites the stored value when the key is byte-equal to a
  present key and otherwise prepends a new chain node; search walks the
  chain and returns the stored value for a byte-equal key; remove copies
  the value out and unlinks the node, leaving the out buffer unchanged
  when the key is absent.  The table is modelled as one association
  list (the concatenation of the bucket chains; division hashing only
  distributes entries among buckets and does not affect the mapping).

  Machine integers: all index arithmetic in the C heap is uint32_t.  In
  the embedding indices are Nat; Nat subtraction truncates at 0 where
  uint32 subtraction wraps, and the two agree whenever no underflow
  occurs.  Claim C10's theorem proves that, under the assert precondition
  of heapify_down (0 < num_elts and i < num_elts) and the initialization
  bound num_elts <= 2^32 - 2, the guard expressions of heapify_down never
  wrap, which justifies the Nat reading used everywhere else.  The
  explicit mod-2^32 forms of the guard arithmetic are defined below
  (u32add, u32sub) and compared against the Nat forms.
-/

/-- Comparator on priorities: negative if the first is lower, zero if
equal, positive if greater (the contract of cmp_pty_fn in heap-uint32.c). -/
def cmp_pty (a b : Int) : Int :=
  if a < b then -1 else if a = b then 0 else 1

/-- Pointwise update of a function, modelling a memcpy of one stride into
an array region. -/
def upd (f : Nat → α) (i : Nat) (v : α) : Nat → α :=
  fun j => if j = i then v else f j

/-- Modelled from the spec: search of ht-div-uint32.c (implementation not
under src/); walks the chain and returns the stored value at the first
byte-equal key, null when absent (spec section 4.1, ht-divchn.h). -/
def ht_div_uint32_search : List (Nat × Nat) → Nat → Option Nat
  | [], _ => none
  | p :: t, k => if p.1 = k then some p.2 else ht_div_uint32_search t k

/-- Modelled from the spec: the overwrite branch of insert; replaces the
value stored with the first byte-equal key in place. -/
def assocOverwrite : List (Nat × Nat) → Nat → Nat → List (Nat × Nat)
  | [], _, _ => []
  | p :: t, k, v => if p.1 = k then (k, v) :: t else p :: assocOverwrite t k v

/-- Modelled from the spec: insert (upsert) of ht-div-uint32.c; if the key
is present its stored value is overwritten, otherwise a new node carrying
the key and value is prepended to the chain (spec section 4.1). -/
def ht_div_uint32_insert (l : List (Nat × Nat)) (k v : Nat) : List (Nat × Nat) :=
  match ht_div_uint32_search l k with
  | some _ => assocOverwrite l k v
  | none => (k, v) :: l

/-- Modelled from the spec: unlinking of the first node with a byte-equal
key, used by remove. -/
def assocErase : List (Nat × Nat) → Nat → List (Nat × Nat)
  | [], _ => []
  | p :: t, k => if p.1 = k then t else p :: assocErase t k

/-- Modelled from the spec: remove of ht-div-uint32.c; if the key is
present its value is copied into the out buffer and the node is unlinked;
if absent the table and the out buffer are left unchanged. -/
def ht_div_uint32_remove (l : List (Nat × Nat)) (k : Nat) (out : Nat) :
    List (Nat × Nat) × Nat :=
  match ht_div_uint32_search l k with
  | some v => (assocErase l k, v)
  | none => (l, out)

/-- State of heap_uint32_t: capacity (heap_size), the fatal cap
(heap_max_size, set to 2^32 - 2 at init), the number of elements, the
priority and element regions (total functions; slots at and beyond
num_elts model uninitialized malloc memory and are never read), and the
side-index table.  pty_size and elt_size are byte widths of the opaque
blocks and are abstracted away by the Int/Nat modelling. -/
structure Heap where
  heap_size : Nat
  heap_max_size : Nat
  num_elts : Nat
  ptys : Nat → Int
  elts : Nat → Nat
  ht : List (Nat × Nat)

/-- Read of the priority array at slot i (pty_ptr in heap-uint32.c
computes the pointer; the model reads the value). -/
def pty_ptr (h : Heap) (i : Nat) : Int := h.ptys i

/-- Read of the element array at slot i (elt_ptr in heap-uint32.c). -/
def elt_ptr (h : Heap) (i : Nat) : Nat := h.elts i

/-- Swap of heap-uint32.c: exchanges the element and priority blocks of
slots i and j through scratch buffers, then issues the two side-index
upserts mapping the element newly at slot i to i and the element newly at
slot j to j.  The function returns immediately when i == j. -/
def swap (h : Heap) (i j : Nat) : Heap :=
  if i = j then h
  else
    let h1 := { h with
      elts := upd (upd h.elts i (h.elts j)) j (h.elts i),
      ptys := upd (upd h.ptys i (h.ptys j)) j (h.ptys i) }
    { h1 with
      ht := ht_div_uint32_insert (ht_div_uint32_insert h1.ht (elt_ptr h1 i) i)
              (elt_ptr h1 j) j }

/-- Sift-up loop of heap-uint32.c: while i > 0, compare the parent
priority with the priority at i and swap upward while the parent is
strictly greater. -/
def heapify_up (h : Heap) (i : Nat) : Heap :=
  if hz : i = 0 then h
  else
    let ju := (i - 1) / 2
    if cmp_pty (pty_ptr h ju) (pty_ptr h i) > 0 then
      heapify_up (swap h i ju) ju
    else h
termination_by i
decreasing_by
  have := Nat.div_le_self (i - 1) 2
  omega

/-- Final left-child-only check after the sift-down loop of heap-uint32.c
(the case i + 1 == num_elts - 1 - i, where slot 2i+1 is the last slot). -/
def down_last (h : Heap) (i : Nat) : Heap :=
  if i + 1 = h.num_elts - 1 - i then
    if cmp_pty (pty_ptr h i) (pty_ptr h (2 * i + 1)) > 0 then
      swap h i (2 * i + 1)
    else h
  else h

/-- Sift-down loop of heap-uint32.c.  The guard i + 2 <= num_elts - 1 - i
holds exactly when both children 2i+1 and 2i+2 are inside the heap; the
first branch moves to the left child when it is no greater than the right
child (left child wins ties), the second branch moves to the right child.
The subtraction is written on Nat; under the assert precondition of the C
function the uint32 subtraction does not wrap and agrees with the Nat
form (proved for claim C10). -/
def heapify_down (h : Heap) (i : Nat) : Heap :=
  if hg : i + 2 ≤ h.num_elts - 1 - i then
    if cmp_pty (pty_ptr h i) (pty_ptr h (2 * i + 1)) > 0 ∧
       cmp_pty (pty_ptr h (2 * i + 1)) (pty_ptr h (2 * i + 2)) ≤ 0 then
      heapify_down (swap h i (2 * i + 1)) (2 * i + 1)
    else if cmp_pty (pty_ptr h i) (pty_ptr h (2 * i + 2)) > 0 then
      heapify_down (swap h i (2 * i + 2)) (2 * i + 2)
    else down_last h i
  else down_last h i
termination_by h.num_elts - i
decreasing_by
  · have hs : ∀ j, (swap h i j).num_elts = h.num_elts := fun j => by
      unfold swap; split <;> rfl
    rw [hs]
    omega
  · have hs : ∀ j, (swap h i j).num_elts = h.num_elts := fun j => by
      unfold swap; split <;> rfl
    rw [hs]
    omega

/-- Initialization of heap-uint32.c: heap_max_size is 2^32 - 2 (due to
the uint32 index tests in heapify_down involving i + 2), num_elts is 0,
the regions are freshly allocated (modelled as all-zero; never read below
num_elts), and the side-index table is empty.  The C function asserts
init_heap_size <= heap_max_size; that precondition is carried by the
reachability relation. -/
def heap_uint32_init (init_heap_size : Nat) : Heap :=
  { heap_size := init_heap_size
    heap_max_size := 2 ^ 32 - 2
    num_elts := 0
    ptys := fun _ => 0
    elts := fun _ => 0
    ht := [] }

/-- Growth step of heap-uint32.c: fatal (none) when heap_size has reached
heap_max_size (the assert); otherwise the capacity is clamped to
heap_max_size when doubling would exceed it (the test
heap_max_size - heap_size < heap_size, which is also how the C code
avoids uint32 overflow of the doubling), else doubled. -/
def heap_grow (h : Heap) : Option Heap :=
  if h.heap_size < h.heap_max_size then
    some (if h.heap_max_size - h.heap_size < h.heap_size then
            { h with heap_size := h.heap_max_size }
          else
            { h with heap_size := h.heap_size * 2 })
  else none

/-- Push of heap-uint32.c: grow when full (fatal growth propagates as
none), write the element and priority at slot num_elts, upsert the
element to that slot in the side-index, increment num_elts, sift up from
the written slot. -/
def heap_uint32_push (h : Heap) (pty : Int) (elt : Nat) : Option Heap :=
  match (if h.heap_size = h.num_elts then heap_grow h else some h) with
  | none => none
  | some h1 =>
    let ix := h1.num_elts
    let h2 := { h1 with
      elts := upd h1.elts ix elt,
      ptys := upd h1.ptys ix pty,
      ht := ht_div_uint32_insert h1.ht elt ix,
      num_elts := h1.num_elts + 1 }
    some (heapify_up h2 ix)

/-- Search of heap-uint32.c: look the element up in the side-index and
return the priority stored at the found slot (the C function returns a
pointer into the priority region), or none.  The heap component of the
result is the state the function leaves behind: the function performs no
writes, so it is the input state, field for field. -/
def heap_uint32_search (h : Heap) (elt : Nat) : Heap × Option Int :=
  match ht_div_uint32_search h.ht elt with
  | some ix => (h, some (pty_ptr h ix))
  | none => (h, none)

/-- Update of heap-uint32.c: fatal (none) when the element is absent (the
assert); otherwise overwrite the priority at the element's slot and run
sift-up from that slot followed by sift-down from the same slot. -/
def heap_uint32_update (h : Heap) (pty : Int) (elt : Nat) : Option Heap :=
  match ht_div_uint32_search h.ht elt with
  | none => none
  | some ix =>
    let h1 := { h with ptys := upd h.ptys ix pty }
    some (heapify_down (heapify_up h1 ix) ix)

/-- Pop of heap-uint32.c: on an empty heap return with the out blocks
(pty, elt) unchanged; otherwise copy slot 0 into the out blocks, swap
slot 0 with the last slot, remove the popped element from the side-index
(into a discarded buffer), decrement num_elts, and sift down from slot 0
when elements remain. -/
def heap_uint32_pop (h : Heap) (pty : Int) (elt : Nat) : Heap × Int × Nat :=
  if h.num_elts = 0 then (h, pty, elt)
  else
    let elt1 := elt_ptr h 0
    let pty1 := pty_ptr h 0
    let h1 := swap h 0 (h.num_elts - 1)
    let hr := ht_div_uint32_remove h1.ht elt1 0
    let h2 := { h1 with ht := hr.1, num_elts := h1.num_elts - 1 }
    (if 0 < h2.num_elts then heapify_down h2 0 else h2, pty1, elt1)

/-- State of the heap after the removal step of pop and the num_elts
decrement, before the final sift-down: slot 0 swapped with the last slot,
the popped element removed from the side-index, num_elts decremented. -/
def pop_mid (h : Heap) : Heap :=
  { swap h 0 (h.num_elts - 1) with
    ht := (ht_div_uint32_remove (swap h 0 (h.num_elts - 1)).ht (elt_ptr h 0) 0).1,
    num_elts := (swap h 0 (h.num_elts - 1)).num_elts - 1 }

/-- Repeated pop with explicit fuel: pops the minimum until the heap is
empty or the fuel runs out, returning the final state and the sequence of
popped priorities.  With fuel num_elts this drains the heap exactly
(each pop on a non-empty heap decreases num_elts by one). -/
def popDrain (h : Heap) : Nat → Heap × List Int
  | 0 => (h, [])
  | fuel + 1 =>
    if h.num_elts = 0 then (h, [])
    else
      let r := heap_uint32_pop h 0 0
      let d := popDrain r.1 fuel
      (d.1, r.2.1 :: d.2)

/-- Sequence of priorities produced by repeatedly calling pop until the
heap is empty. -/
def popSeq (h : Heap) : List Int := (popDrain h h.num_elts).2

/-- Number of swap calls performed by the sift-up loop (every swap call
of sift-up has distinct slot arguments, so each is actual motion). -/
def heapify_up_swaps (h : Heap) (i : Nat) : Nat :=
  if hz : i = 0 then 0
  else
    let ju := (i - 1) / 2
    if cmp_pty (pty_ptr h ju) (pty_ptr h i) > 0 then
      heapify_up_swaps (swap h i ju) ju + 1
    else 0
termination_by i
decreasing_by
  have := Nat.div_le_self (i - 1) 2
  omega

/-- Number of swap calls performed by the final left-child-only check of
sift-down. -/
def down_last_swaps (h : Heap) (i : Nat) : Nat :=
  if i + 1 = h.num_elts - 1 - i then
    if cmp_pty (pty_ptr h i) (pty_ptr h (2 * i + 1)) > 0 then 1 else 0
  else 0

/-- Number of swap calls performed by sift-down (loop and final check). -/
def heapify_down_swaps (h : Heap) (i : Nat) : Nat :=
  if hg : i + 2 ≤ h.num_elts - 1 - i then
    if cmp_pty (pty_ptr h i) (pty_ptr h (2 * i + 1)) > 0 ∧
       cmp_pty (pty_ptr h (2 * i + 1)) (pty_ptr h (2 * i + 2)) ≤ 0 then
      heapify_down_swaps (swap h i (2 * i + 1)) (2 * i + 1) + 1
    else if cmp_pty (pty_ptr h i) (pty_ptr h (2 * i + 2)) > 0 then
      heapify_down_swaps (swap h i (2 * i + 2)) (2 * i + 2) + 1
    else down_last_swaps h i
  else down_last_swaps h i
termination_by h.num_elts - i
decreasing_by
  · have hs : ∀ j, (swap h i j).num_elts = h.num_elts := fun j => by
      unfold swap; split <;> rfl
    rw [hs]
    omega
  · have hs : ∀ j, (swap h i j).num_elts = h.num_elts := fun j => by
      unfold swap; split <;> rfl
    rw [hs]
    omega

/-- Slots accessed by the final left-child-only check of sift-down (reads
by the comparator and the slots exchanged by swap). -/
def down_last_accesses (h : Heap) (i : Nat) : List Nat :=
  if i + 1 = h.num_elts - 1 - i then [i, 2 * i + 1] else []

/-- Slots accessed by sift-down: every index passed to pty_ptr or swap
along the executed path. -/
def heapify_down_accesses (h : Heap) (i : Nat) : List Nat :=
  if hg : i + 2 ≤ h.num_elts - 1 - i then
    if cmp_pty (pty_ptr h i) (pty_ptr h (2 * i + 1)) > 0 ∧
       cmp_pty (pty_ptr h (2 * i + 1)) (pty_ptr h (2 * i + 2)) ≤ 0 then
      i :: (2 * i + 1) :: (2 * i + 2) ::
        heapify_down_accesses (swap h i (2 * i + 1)) (2 * i + 1)
    else if cmp_pty (pty_ptr h i) (pty_ptr h (2 * i + 2)) > 0 then
      i :: (2 * i + 1) :: (2 * i + 2) ::
        heapify_down_accesses (swap h i (2 * i + 2)) (2 * i + 2)
    else i :: (2 * i + 1) :: (2 * i + 2) :: down_last_accesses h i
  else down_last_accesses h i
termination_by h.num_elts - i
decreasing_by
  · have hs : ∀ j, (swap h i j).num_elts = h.num_elts := fun j => by
      unfold swap; split <;> rfl
    rw [hs]
    omega
  · have hs : ∀ j, (swap h i j).num_elts = h.num_elts := fun j => by
      unfold swap; split <;> rfl
    rw [hs]
    omega

/-- Modulus of uint32_t arithmetic. -/
def pow32 : Nat := 4294967296

/-- Addition as computed in uint32_t. -/
def u32add (a b : Nat) : Nat := (a + b) % pow32

/-- Subtraction as computed in uint32_t (wrapping), for operands below
2^32. -/
def u32sub (a b : Nat) : Nat := (a + pow32 - b) % pow32

/-- Heap-order invariant of the priority region: every non-root slot
below num_elts is no smaller than its parent slot (i-1)/2. -/
def HeapOrd (h : Heap) : Prop :=
  ∀ j, 0 < j → j < h.num_elts → h.ptys ((j - 1) / 2) ≤ h.ptys j

/-- State of the priority region during sift-up from slot i: every
parent/child edge not entering i is ordered, and the parent of i bounds
the children of i (so the entry at i can move up past its parent). -/
def UpInv (h : Heap) (i : Nat) : Prop :=
  (∀ j, 0 < j → j < h.num_elts → j ≠ i → h.ptys ((j - 1) / 2) ≤ h.ptys j) ∧
  (0 < i → ∀ j, 0 < j → j < h.num_elts → (j - 1) / 2 = i →
    h.ptys ((i - 1) / 2) ≤ h.ptys j)

/-- State of the priority region during sift-down from slot i: every
parent/child edge not leaving i is ordered, and the parent of i bounds
the children of i (so the entry at i can move down past a child). -/
def DownInv (h : Heap) (i : Nat) : Prop :=
  (∀ j, 0 < j → j < h.num_elts → (j - 1) / 2 ≠ i → h.ptys ((j - 1) / 2) ≤ h.ptys j) ∧
  (0 < i → ∀ j, 0 < j → j < h.num_elts → (j - 1) / 2 = i →
    h.ptys ((i - 1) / 2) ≤ h.ptys j)

/-- The side-index is coherent with the element region: every resident
element is mapped to the slot holding it, absent byte patterns are
unmapped, and no key occurs twice in the table. -/
def Coherent (h : Heap) : Prop :=
  (∀ i, i < h.num_elts → ht_div_uint32_search h.ht (h.elts i) = some i) ∧
  (∀ e, (∀ i, i < h.num_elts → h.elts i ≠ e) →
    ht_div_uint32_search h.ht e = none) ∧
  (h.ht.map Prod.fst).Nodup

/-- Lower bound on every resident priority. -/
def LB (b : Int) (h : Heap) : Prop :=
  ∀ i, i < h.num_elts → b ≤ h.ptys i

/-- The invariant maintained by every public heap operation. -/
structure HeapInv (h : Heap) : Prop where
  maxsz : h.heap_max_size = 2 ^ 32 - 2
  size_pos : 0 < h.heap_size
  size_le : h.heap_size ≤ h.heap_max_size
  ne_le : h.num_elts ≤ h.heap_size
  ord : HeapOrd h
  coh : Coherent h

/-- Heap states reachable from initialization by the public mutating
operations under their documented preconditions: init with a positive
initial capacity within the asserted bound, push of an element whose byte
pattern is not yet present, update (fatal on an absent element, so only
successful updates produce states), and pop. -/
inductive Reachable : Heap → Prop
  | init : ∀ c, 0 < c → c ≤ 2 ^ 32 - 2 → Reachable (heap_uint32_init c)
  | push : ∀ {h h1 : Heap} (p : Int) (e : Nat), Reachable h →
      ht_div_uint32_search h.ht e = none →
      heap_uint32_push h p e = some h1 → Reachable h1
  | update : ∀ {h h1 : Heap} (p : Int) (e : Nat), Reachable h →
      heap_uint32_update h p e = some h1 → Reachable h1
  | pop : ∀ {h : Heap} (p : Int) (e : Nat), Reachable h →
      Reachable (heap_uint32_pop h p e).1

/-- Modelled from the spec: state of the chained hash table ht-divchn
(its implementation ht-divchn.c is not under src/; only the header
ht-divchn.h in src/unnamed/part_001 is).  count is the current prime slot
count; rest_counts is the remaining tail of the precomputed prime
sequence, empty exactly when the maximum representable prime has been
reached (count_ix holds the max size_t sentinel in the header's words);
num_elts, alpha_n and log_alpha_d are as in ht_divchn_t.  Values are
irrelevant to the load-factor claim and are not modelled; keys is the
list of present keys. -/
structure HtDivchn where
  count : Nat
  rest_counts : List Nat
  num_elts : Nat
  alpha_n : Nat
  log_alpha_d : Nat
  keys : List Nat

/-- Modelled from the spec: the prime-walking loop of load-factor-driven
growth; while the bound num_elts * 2^log_alpha_d <= count * alpha_n is
violated and the maximum representable prime has not been reached, move
to the next prime of the precomputed sequence (spec section 4.1:
rehashing into the next prime maintains the load factor below alpha).
Arguments: the key count, the load factor numerator and log denominator,
the current prime, the rest of the prime sequence. -/
def ht_grow_go (n a d : Nat) : Nat → List Nat → Nat × List Nat
  | count, [] => (count, [])
  | count, c :: rest =>
    if n * 2 ^ d > count * a then ht_grow_go n a d c rest
    else (count, c :: rest)

/-- Modelled from the spec: load-factor-driven growth of ht-divchn;
advances the slot count through the prime sequence until the load-factor
bound holds or the maximum representable prime is reached, then rehashes
every node into the new bucket array (invisible in this model, which
keeps the key set). -/
def ht_divchn_grow (t : HtDivchn) : HtDivchn :=
  { t with
    count := (ht_grow_go t.num_elts t.alpha_n t.log_alpha_d t.count t.rest_counts).1,
    rest_counts := (ht_grow_go t.num_elts t.alpha_n t.log_alpha_d t.count t.rest_counts).2 }

/-- Modelled from the spec: insert of ht-divchn; a present key only has
its value overwritten (no chain change, no load-factor check); a new key
is prepended to its bucket chain, num_elts is incremented, and the load
factor is checked, growing the table if needed. -/
def ht_divchn_insert (t : HtDivchn) (k : Nat) : HtDivchn :=
  if k ∈ t.keys then t
  else ht_divchn_grow { t with keys := k :: t.keys, num_elts := t.num_elts + 1 }

/-- Modelled from the spec: remove of ht-divchn; a present key is
unlinked and num_elts decremented; removing an absent key is not an
error and changes nothing. -/
def ht_divchn_remove (t : HtDivchn) (k : Nat) : HtDivchn :=
  if k ∈ t.keys then
    { t with keys := t.keys.erase k, num_elts := t.num_elts - 1 }
  else t

/-- Modelled from the spec: delete of ht-divchn; like remove but the
value is destroyed in place instead of copied out, which is invisible in
this model. -/
def ht_divchn_delete (t : HtDivchn) (k : Nat) : HtDivchn :=
  if k ∈ t.keys then
    { t with keys := t.keys.erase k, num_elts := t.num_elts - 1 }
  else t

/-- Chained-hash-table states reachable from an initialized empty table
by insert, remove and delete. -/
inductive HtReachable : HtDivchn → Prop
  | init : ∀ count rest alpha_n log_alpha_d,
      HtReachable ⟨count, rest, 0, alpha_n, log_alpha_d, []⟩
  | insert : ∀ {t : HtDivchn} (k : Nat), HtReachable t →
      HtReachable (ht_divchn_insert t k)
  | remove : ∀ {t : HtDivchn} (k : Nat), HtReachable t →
      HtReachable (ht_divchn_remove t k)
  | delete : ∀ {t : HtDivchn} (k : Nat), HtReachable t →
      HtReachable (ht_divchn_delete t k)

/-- Concrete heap used as a witness state: the result of pushing
priority 3 with element 5 onto a freshly initialized heap of capacity 2. -/
def wheap1 : Heap :=
  { heap_size := 2, heap_max_size := 2 ^ 32 - 2, num_elts := 1,
    ptys := upd (fun _ => 0) 0 3, elts := upd (fun _ => 0) 0 5, ht := [(5, 0)] }

/-- Concrete heap used as a witness state: wheap1 after additionally
pushing priority 1 with element 6, which sifts the new pair to the root. -/
def wheap2 : Heap :=
  { heap_size := 2, heap_max_size := 2 ^ 32 - 2, num_elts := 2,
    ptys := upd (upd (upd (upd (fun _ => 0) 0 3) 1 1) 1 3) 0 1,
    elts := upd (upd (upd (upd (fun _ => 0) 0 5) 1 6) 1 5) 0 6,
    ht := [(6, 0), (5, 1)] }

/-- Concrete heap used as a witness state: the result of pushing
priority 3 with element 5 onto a freshly initialized heap of capacity 1;
it is full, so the next push triggers growth. -/
def wheapFull : Heap :=
  { heap_size := 1, heap_max_size := 2 ^ 32 - 2, num_elts := 1,
    ptys := upd (fun _ => 0) 0 3, elts := upd (fun _ => 0) 0 5, ht := [(5, 0)] }

/-- Concrete heap used in the counterexample to C5 as stated: wheap1
after pushing priority 4 with element 6 (no sift motion, since 4 is not
below the root priority 3). -/
def wheapCex : Heap :=
  { heap_size := 2, heap_max_size := 2 ^ 32 - 2, num_elts := 2,
    ptys := upd (upd (fun _ => 0) 0 3) 1 4,
    elts := upd (upd (fun _ => 0) 0 5) 1 6,
    ht := [(6, 1), (5, 0)] }

/- Basic lemmas about the comparator, array writes and parent/child
index arithmetic. -/

theorem cmp_pty_pos_iff (a b : Int) : cmp_pty a b > 0 ↔ b < a := by
  unfold cmp_pty
  split_ifs with h1 h2 <;> constructor <;> intro hx <;> omega

theorem cmp_pty_nonpos_iff (a b : Int) : cmp_pty a b ≤ 0 ↔ a ≤ b := by
  unfold cmp_pty
  split_ifs with h1 h2 <;> constructor <;> intro hx <;> omega

theorem cmp_pty_nonneg_iff (a b : Int) : cmp_pty a b ≥ 0 ↔ b ≤ a := by
  unfold cmp_pty
  split_ifs with h1 h2 <;> constructor <;> intro hx <;> omega

theorem cmp_pty_neg_iff (a b : Int) : cmp_pty a b < 0 ↔ a < b := by
  unfold cmp_pty
  split_ifs with h1 h2 <;> constructor <;> intro hx <;> omega

theorem not_cmp_pty_pos_iff (a b : Int) : ¬ cmp_pty a b > 0 ↔ a ≤ b := by
  rw [cmp_pty_pos_iff]; omega

@[simp] theorem upd_same (f : Nat → α) (i : Nat) (v : α) : upd f i v i = v := by
  unfold upd; simp

theorem upd_ne (f : Nat → α) (i : Nat) (v : α) {j : Nat} (hj : j ≠ i) :
    upd f i v j = f j := by
  unfold upd; simp [hj]

theorem upd_apply (f : Nat → α) (i : Nat) (v : α) (j : Nat) :
    upd f i v j = if j = i then v else f j := rfl

theorem parent_lt {i : Nat} (hi : 0 < i) : (i - 1) / 2 < i := by
  have := Nat.div_le_self (i - 1) 2
  omega

theorem parent_eq_iff {j i : Nat} (hj : 0 < j) :
    (j - 1) / 2 = i ↔ j = 2 * i + 1 ∨ j = 2 * i + 2 := by
  omega

/- Lemmas about the association-list model of the side-index table. -/

theorem search_overwrite_self (l : List (Nat × Nat)) (k v w : Nat)
    (hs : ht_div_uint32_search l k = some w) :
    ht_div_uint32_search (assocOverwrite l k v) k = some v := by
  induction l with
  | nil => simp [ht_div_uint32_search] at hs
  | cons p t ih =>
    by_cases hp : p.1 = k
    · simp [assocOverwrite, hp, ht_div_uint32_search]
    · simp only [ht_div_uint32_search, if_neg hp] at hs
      simp [assocOverwrite, hp, ht_div_uint32_search, ih hs]

theorem search_overwrite_ne (l : List (Nat × Nat)) (k v : Nat) {k2 : Nat}
    (hk : k2 ≠ k) :
    ht_div_uint32_search (assocOverwrite l k v) k2 = ht_div_uint32_search l k2 := by
  induction l with
  | nil => simp [assocOverwrite]
  | cons p t ih =>
    by_cases hp : p.1 = k
    · simp [assocOverwrite, hp, ht_div_uint32_search, Ne.symm hk]
    · simp [assocOverwrite, hp, ht_div_uint32_search, ih]

theorem overwrite_keys (l : List (Nat × Nat)) (k v : Nat) :
    (assocOverwrite l k v).map Prod.fst = l.map Prod.fst := by
  induction l with
  | nil => simp [assocOverwrite]
  | cons p t ih =>
    by_cases hp : p.1 = k
    · simp [assocOverwrite, hp]
    · simp [assocOverwrite, hp, ih]

theorem search_insert_self (l : List (Nat × Nat)) (k v : Nat) :
    ht_div_uint32_search (ht_div_uint32_insert l k v) k = some v := by
  unfold ht_div_uint32_insert
  cases hs : ht_div_uint32_search l k with
  | none => simp [ht_div_uint32_search]
  | some w => exact search_overwrite_self l k v w hs

theorem search_insert_ne (l : List (Nat × Nat)) (k v : Nat) {k2 : Nat}
    (hk : k2 ≠ k) :
    ht_div_uint32_search (ht_div_uint32_insert l k v) k2 =
      ht_div_uint32_search l k2 := by
  unfold ht_div_uint32_insert
  cases hs : ht_div_uint32_search l k with
  | none => simp [ht_div_uint32_search, Ne.symm hk]
  | some w => exact search_overwrite_ne l k v hk

theorem search_eq_none_iff (l : List (Nat × Nat)) (k : Nat) :
    ht_div_uint32_search l k = none ↔ k ∉ l.map Prod.fst := by
  induction l with
  | nil => simp [ht_div_uint32_search]
  | cons p t ih =>
    by_cases hp : p.1 = k
    · simp [ht_div_uint32_search, hp]
    · simp [ht_div_uint32_search, hp, ih, Ne.symm hp]

theorem insert_keys_nodup (l : List (Nat × Nat)) (k v : Nat)
    (hn : (l.map Prod.fst).Nodup) :
    ((ht_div_uint32_insert l k v).map Prod.fst).Nodup := by
  unfold ht_div_uint32_insert
  cases hs : ht_div_uint32_search l k with
  | none =>
    simp only [List.map_cons, List.nodup_cons]
    exact ⟨(search_eq_none_iff l k).mp hs, hn⟩
  | some w => rw [overwrite_keys]; exact hn

theorem search_erase_ne (l : List (Nat × Nat)) (k : Nat) {k2 : Nat}
    (hk : k2 ≠ k) :
    ht_div_uint32_search (assocErase l k) k2 = ht_div_uint32_search l k2 := by
  induction l with
  | nil => simp [assocErase]
  | cons p t ih =>
    by_cases hp : p.1 = k
    · simp [assocErase, hp, ht_div_uint32_search, Ne.symm hk]
    · simp [assocErase, hp, ht_div_uint32_search, ih]

theorem search_erase_self (l : List (Nat × Nat)) (k : Nat)
    (hn : (l.map Prod.fst).Nodup) :
    ht_div_uint32_search (assocErase l k) k = none := by
  induction l with
  | nil => simp [assocErase, ht_div_uint32_search]
  | cons p t ih =>
    simp only [List.map_cons, List.nodup_cons] at hn
    by_cases hp : p.1 = k
    · simp only [assocErase, if_pos hp]
      rw [search_eq_none_iff]
      rw [hp] at hn
      exact hn.1
    · simp [assocErase, hp, ht_div_uint32_search, ih hn.2]

theorem erase_keys_sublist (l : List (Nat × Nat)) (k : Nat) :
    ((assocErase l k).map Prod.fst).Sublist (l.map Prod.fst) := by
  induction l with
  | nil => simp [assocErase]
  | cons p t ih =>
    by_cases hp : p.1 = k
    · simp only [assocErase, if_pos hp, List.map_cons]
      exact (List.sublist_cons_self _ _)
    · simp only [assocErase, if_neg hp, List.map_cons]
      exact ih.cons₂ p.1

theorem erase_keys_nodup (l : List (Nat × Nat)) (k : Nat)
    (hn : (l.map Prod.fst).Nodup) :
    ((assocErase l k).map Prod.fst).Nodup :=
  (erase_keys_sublist l k).nodup hn

/- Lemmas about swap. -/

theorem swap_num_elts (h : Heap) (i j : Nat) : (swap h i j).num_elts = h.num_elts := by
  unfold swap; split <;> rfl

theorem swap_heap_size (h : Heap) (i j : Nat) :
    (swap h i j).heap_size = h.heap_size := by
  unfold swap; split <;> rfl

theorem swap_heap_max_size (h : Heap) (i j : Nat) :
    (swap h i j).heap_max_size = h.heap_max_size := by
  unfold swap; split <;> rfl

theorem swap_self (h : Heap) (i : Nat) : swap h i i = h := by
  unfold swap; simp

theorem swap_ptys_apply (h : Heap) {i j : Nat} (hij : i ≠ j) (k : Nat) :
    (swap h i j).ptys k =
      if k = j then h.ptys i else if k = i then h.ptys j else h.ptys k := by
  unfold swap
  rw [if_neg hij]
  simp only [upd_apply]

theorem swap_elts_apply (h : Heap) {i j : Nat} (hij : i ≠ j) (k : Nat) :
    (swap h i j).elts k =
      if k = j then h.elts i else if k = i then h.elts j else h.elts k := by
  unfold swap
  rw [if_neg hij]
  simp only [upd_apply]

theorem swap_ht (h : Heap) {i j : Nat} (hij : i ≠ j) :
    (swap h i j).ht =
      ht_div_uint32_insert (ht_div_uint32_insert h.ht (h.elts j) i) (h.elts i) j := by
  unfold swap
  rw [if_neg hij]
  simp only [elt_ptr, upd_apply, if_neg hij, if_pos rfl]
  have : ¬ (j = j → False) := fun hc => hc rfl
  simp [Ne.symm hij]

/- Coherence of the side-index under swap, and frame lemmas for the sift
routines. -/

theorem coh_distinct (h : Heap) (hc : Coherent h) :
    ∀ a b, a < h.num_elts → b < h.num_elts → h.elts a = h.elts b → a = b := by
  intro a b ha hb he
  have h1 := hc.1 a ha
  have h2 := hc.1 b hb
  rw [he, h2] at h1
  exact (Option.some_inj.mp h1).symm

theorem coh_search_some (h : Heap) (hc : Coherent h) {e ix : Nat}
    (hs : ht_div_uint32_search h.ht e = some ix) :
    ix < h.num_elts ∧ h.elts ix = e := by
  by_cases hpres : ∃ k, k < h.num_elts ∧ h.elts k = e
  · obtain ⟨k, hk, he⟩ := hpres
    have h1 := hc.1 k hk
    rw [he, hs] at h1
    obtain rfl := Option.some_inj.mp h1
    exact ⟨hk, he⟩
  · push_neg at hpres
    rw [hc.2.1 e hpres] at hs
    cases hs

theorem swap_coh (h : Heap) {i j : Nat} (hi : i < h.num_elts)
    (hj : j < h.num_elts) (hc : Coherent h) : Coherent (swap h i j) := by
  by_cases hij : i = j
  · subst hij; rw [swap_self]; exact hc
  · have hdis := coh_distinct h hc
    obtain ⟨c1, c2, c3⟩ := hc
    have hne : h.elts i ≠ h.elts j := fun he => hij (hdis i j hi hj he)
    refine ⟨?_, ?_, ?_⟩
    · intro k hk
      rw [swap_num_elts] at hk
      rw [swap_ht h hij, swap_elts_apply h hij k]
      by_cases hkj : k = j
      · subst hkj
        rw [if_pos rfl]
        exact search_insert_self _ _ _
      · rw [if_neg hkj]
        by_cases hki : k = i
        · subst hki
          rw [if_pos rfl]
          rw [search_insert_ne _ _ _ (Ne.symm hne)]
          exact search_insert_self _ _ _
        · rw [if_neg hki]
          have hnei : h.elts k ≠ h.elts i := fun he => hki (hdis k i hk hi he)
          have hnej : h.elts k ≠ h.elts j := fun he => hkj (hdis k j hk hj he)
          rw [search_insert_ne _ _ _ hnei, search_insert_ne _ _ _ hnej]
          exact c1 k hk
    · intro e habs
      simp only [swap_num_elts] at habs
      have hie : h.elts i ≠ e := by
        have := habs j hj
        rw [swap_elts_apply h hij j, if_pos rfl] at this
        exact this
      have hje : h.elts j ≠ e := by
        have := habs i hi
        rw [swap_elts_apply h hij i, if_neg hij, if_pos rfl] at this
        exact this
      have habs2 : ∀ k, k < h.num_elts → h.elts k ≠ e := by
        intro k hk
        by_cases hkj : k = j
        · subst hkj; exact hje
        · by_cases hki : k = i
          · subst hki; exact hie
          · have := habs k hk
            rw [swap_elts_apply h hij k, if_neg hkj, if_neg hki] at this
            exact this
      rw [swap_ht h hij]
      rw [search_insert_ne _ _ _ (Ne.symm hie), search_insert_ne _ _ _ (Ne.symm hje)]
      exact c2 e habs2
    · rw [swap_ht h hij]
      exact insert_keys_nodup _ _ _ (insert_keys_nodup _ _ _ c3)

theorem swap_LB (h : Heap) {b : Int} {i j : Nat} (hi : i < h.num_elts)
    (hj : j < h.num_elts) (hlb : LB b h) : LB b (swap h i j) := by
  by_cases hij : i = j
  · subst hij; rw [swap_self]; exact hlb
  · intro k hk
    rw [swap_num_elts] at hk
    rw [swap_ptys_apply h hij k]
    split_ifs with hk1 hk2
    · exact hlb i hi
    · exact hlb j hj
    · exact hlb k hk

theorem down_last_num_elts (h : Heap) (i : Nat) :
    (down_last h i).num_elts = h.num_elts := by
  unfold down_last; split_ifs with h1 h2 <;> simp [swap_num_elts]

theorem down_last_heap_size (h : Heap) (i : Nat) :
    (down_last h i).heap_size = h.heap_size := by
  unfold down_last; split_ifs with h1 h2 <;> simp [swap_heap_size]

theorem down_last_heap_max_size (h : Heap) (i : Nat) :
    (down_last h i).heap_max_size = h.heap_max_size := by
  unfold down_last; split_ifs with h1 h2 <;> simp [swap_heap_max_size]

theorem down_last_coh (h : Heap) (i : Nat) (hc : Coherent h) :
    Coherent (down_last h i) := by
  unfold down_last
  split_ifs with h1 h2
  · exact swap_coh h (by omega) (by omega) hc
  · exact hc
  · exact hc

theorem down_last_LB (h : Heap) (i : Nat) {b : Int} (hlb : LB b h) :
    LB b (down_last h i) := by
  unfold down_last
  split_ifs with h1 h2
  · exact swap_LB h (by omega) (by omega) hlb
  · exact hlb
  · exact hlb

theorem heapify_up_num_elts (h : Heap) (i : Nat) :
    (heapify_up h i).num_elts = h.num_elts := by
  induction h, i using heapify_up.induct with
  | case1 h => rw [heapify_up]; simp
  | case2 h i hz ju hc ih =>
    rw [heapify_up]
    simp only [dif_neg hz, if_pos hc]
    rw [ih, swap_num_elts]
  | case3 h i hz ju hc =>
    rw [heapify_up]
    simp only [dif_neg hz, if_neg hc]

theorem heapify_up_heap_size (h : Heap) (i : Nat) :
    (heapify_up h i).heap_size = h.heap_size := by
  induction h, i using heapify_up.induct with
  | case1 h => rw [heapify_up]; simp
  | case2 h i hz ju hc ih =>
    rw [heapify_up]
    simp only [dif_neg hz, if_pos hc]
    rw [ih, swap_heap_size]
  | case3 h i hz ju hc =>
    rw [heapify_up]
    simp only [dif_neg hz, if_neg hc]

theorem heapify_up_heap_max_size (h : Heap) (i : Nat) :
    (heapify_up h i).heap_max_size = h.heap_max_size := by
  induction h, i using heapify_up.induct with
  | case1 h => rw [heapify_up]; simp
  | case2 h i hz ju hc ih =>
    rw [heapify_up]
    simp only [dif_neg hz, if_pos hc]
    rw [ih, swap_heap_max_size]
  | case3 h i hz ju hc =>
    rw [heapify_up]
    simp only [dif_neg hz, if_neg hc]

theorem heapify_up_coh (h : Heap) (i : Nat) (hi : i < h.num_elts)
    (hc : Coherent h) : Coherent (heapify_up h i) := by
  induction h, i using heapify_up.induct with
  | case1 h => rw [heapify_up]; simpa
  | case2 h i hz ju hc2 ih =>
    rw [heapify_up]
    simp only [dif_neg hz, if_pos hc2]
    have hju : ju < h.num_elts := lt_trans (parent_lt (Nat.pos_of_ne_zero hz)) hi
    refine ih ?_ (swap_coh h hi hju hc)
    rw [swap_num_elts]
    exact hju
  | case3 h i hz ju hc2 =>
    rw [heapify_up]
    simp only [dif_neg hz, if_neg hc2]
    exact hc

theorem heapify_down_num_elts (h : Heap) (i : Nat) :
    (heapify_down h i).num_elts = h.num_elts := by
  induction h, i using heapify_down.induct with
  | case1 h i hg hc ih =>
    rw [heapify_down]
    simp only [dif_pos hg, if_pos hc]
    rw [ih, swap_num_elts]
  | case2 h i hg hc1 hc2 ih =>
    rw [heapify_down]
    simp only [dif_pos hg, if_neg hc1, if_pos hc2]
    rw [ih, swap_num_elts]
  | case3 h i hg hc1 hc2 =>
    rw [heapify_down]
    simp only [dif_pos hg, if_neg hc1, if_neg hc2]
    exact down_last_num_elts h i
  | case4 h i hg =>
    rw [heapify_down]
    simp only [dif_neg hg]
    exact down_last_num_elts h i

theorem heapify_down_heap_size (h : Heap) (i : Nat) :
    (heapify_down h i).heap_size = h.heap_size := by
  induction h, i using heapify_down.induct with
  | case1 h i hg hc ih =>
    rw [heapify_down]
    simp only [dif_pos hg, if_pos hc]
    rw [ih, swap_heap_size]
  | case2 h i hg hc1 hc2 ih =>
    rw [heapify_down]
    simp only [dif_pos hg, if_neg hc1, if_pos hc2]
    rw [ih, swap_heap_size]
  | case3 h i hg hc1 hc2 =>
    rw [heapify_down]
    simp only [dif_pos hg, if_neg hc1, if_neg hc2]
    exact down_last_heap_size h i
  | case4 h i hg =>
    rw [heapify_down]
    simp only [dif_neg hg]
    exact down_last_heap_size h i

theorem heapify_down_heap_max_size (h : Heap) (i : Nat) :
    (heapify_down h i).heap_max_size = h.heap_max_size := by
  induction h, i using heapify_down.induct with
  | case1 h i hg hc ih =>
    rw [heapify_down]
    simp only [dif_pos hg, if_pos hc]
    rw [ih, swap_heap_max_size]
  | case2 h i hg hc1 hc2 ih =>
    rw [heapify_down]
    simp only [dif_pos hg, if_neg hc1, if_pos hc2]
    rw [ih, swap_heap_max_size]
  | case3 h i hg hc1 hc2 =>
    rw [heapify_down]
    simp only [dif_pos hg, if_neg hc1, if_neg hc2]
    exact down_last_heap_max_size h i
  | case4 h i hg =>
    rw [heapify_down]
    simp only [dif_neg hg]
    exact down_last_heap_max_size h i

theorem heapify_down_coh (h : Heap) (i : Nat) (hc : Coherent h) :
    Coherent (heapify_down h i) := by
  induction h, i using heapify_down.induct with
  | case1 h i hg hc2 ih =>
    rw [heapify_down]
    simp only [dif_pos hg, if_pos hc2]
    exact ih (swap_coh h (by omega) (by omega) hc)
  | case2 h i hg hc1 hc2 ih =>
    rw [heapify_down]
    simp only [dif_pos hg, if_neg hc1, if_pos hc2]
    exact ih (swap_coh h (by omega) (by omega) hc)
  | case3 h i hg hc1 hc2 =>
    rw [heapify_down]
    simp only [dif_pos hg, if_neg hc1, if_neg hc2]
    exact down_last_coh h i hc
  | case4 h i hg =>
    rw [heapify_down]
    simp only [dif_neg hg]
    exact down_last_coh h i hc

theorem heapify_down_LB (h : Heap) (i : Nat) {b : Int} (hlb : LB b h) :
    LB b (heapify_down h i) := by
  induction h, i using heapify_down.induct with
  | case1 h i hg hc2 ih =>
    rw [heapify_down]
    simp only [dif_pos hg, if_pos hc2]
    exact ih (swap_LB h (by omega) (by omega) hlb)
  | case2 h i hg hc1 hc2 ih =>
    rw [heapify_down]
    simp only [dif_pos hg, if_neg hc1, if_pos hc2]
    exact ih (swap_LB h (by omega) (by omega) hlb)
  | case3 h i hg hc1 hc2 =>
    rw [heapify_down]
    simp only [dif_pos hg, if_neg hc1, if_neg hc2]
    exact down_last_LB h i hlb
  | case4 h i hg =>
    rw [heapify_down]
    simp only [dif_neg hg]
    exact down_last_LB h i hlb

/- Pointwise value lemmas for swap. -/

theorem swap_ptys_fst (h : Heap) {i j : Nat} (hij : i ≠ j) :
    (swap h i j).ptys i = h.ptys j := by
  rw [swap_ptys_apply h hij, if_neg hij, if_pos rfl]

theorem swap_ptys_snd (h : Heap) {i j : Nat} (hij : i ≠ j) :
    (swap h i j).ptys j = h.ptys i := by
  rw [swap_ptys_apply h hij, if_pos rfl]

theorem swap_ptys_other (h : Heap) {i j k : Nat} (hij : i ≠ j)
    (hki : k ≠ i) (hkj : k ≠ j) : (swap h i j).ptys k = h.ptys k := by
  rw [swap_ptys_apply h hij, if_neg hkj, if_neg hki]

theorem swap_elts_fst (h : Heap) {i j : Nat} (hij : i ≠ j) :
    (swap h i j).elts i = h.elts j := by
  rw [swap_elts_apply h hij, if_neg hij, if_pos rfl]

theorem swap_elts_snd (h : Heap) {i j : Nat} (hij : i ≠ j) :
    (swap h i j).elts j = h.elts i := by
  rw [swap_elts_apply h hij, if_pos rfl]

theorem swap_elts_other (h : Heap) {i j k : Nat} (hij : i ≠ j)
    (hki : k ≠ i) (hkj : k ≠ j) : (swap h i j).elts k = h.elts k := by
  rw [swap_elts_apply h hij, if_neg hkj, if_neg hki]

/- The sift-up invariant is preserved by an upward swap, and sift-up
restores the heap order. -/

theorem upInv_swap (h : Heap) {i : Nat} (hi0 : 0 < i) (hin : i < h.num_elts)
    (hu : UpInv h i) (hgt : h.ptys i < h.ptys ((i - 1) / 2)) :
    UpInv (swap h i ((i - 1) / 2)) ((i - 1) / 2) := by
  obtain ⟨u1, u2⟩ := hu
  have hjui : (i - 1) / 2 < i := parent_lt hi0
  have hij : i ≠ (i - 1) / 2 := by omega
  set ju := (i - 1) / 2 with hju_def
  constructor
  · intro j hj0 hjn hjne
    rw [swap_num_elts] at hjn
    by_cases hji : j = i
    · subst hji
      rw [show (j - 1) / 2 = ju from rfl, swap_ptys_snd h hij, swap_ptys_fst h hij]
      exact hgt.le
    · by_cases hpj : (j - 1) / 2 = i
      · rw [hpj, swap_ptys_fst h hij, swap_ptys_other h hij hji hjne]
        exact u2 hi0 j hj0 hjn hpj
      · by_cases hpju : (j - 1) / 2 = ju
        · rw [hpju, swap_ptys_snd h hij, swap_ptys_other h hij hji hjne]
          have ht1 := u1 j hj0 hjn hji
          rw [hpju] at ht1
          omega
        · rw [swap_ptys_other h hij hpj hpju, swap_ptys_other h hij hji hjne]
          exact u1 j hj0 hjn hji
  · intro hju0 j hj0 hjn hpj
    rw [swap_num_elts] at hjn
    have hgp := parent_lt hju0
    have hg1 : (ju - 1) / 2 ≠ i := by omega
    have hg2 : (ju - 1) / 2 ≠ ju := by omega
    rw [swap_ptys_other h hij hg1 hg2]
    have hjun : ju < h.num_elts := lt_trans hjui hin
    have ht1 : h.ptys ((ju - 1) / 2) ≤ h.ptys ju := u1 ju hju0 hjun (by omega)
    by_cases hji : j = i
    · subst hji
      rw [swap_ptys_fst h hij]
      exact ht1
    · have hjju : j ≠ ju := by omega
      rw [swap_ptys_other h hij hji hjju]
      have ht2 : h.ptys ju ≤ h.ptys j := by
        have := u1 j hj0 hjn hji
        rw [hpj] at this
        exact this
      omega

theorem heapify_up_ord (h : Heap) (i : Nat) (hi : i < h.num_elts)
    (hu : UpInv h i) : HeapOrd (heapify_up h i) := by
  induction h, i using heapify_up.induct with
  | case1 h =>
    rw [heapify_up]
    simp only [dif_pos rfl]
    intro j hj0 hjn
    exact hu.1 j hj0 hjn (by omega)
  | case2 h i hz ju hc ih =>
    rw [heapify_up]
    simp only [dif_neg hz, if_pos hc]
    have hi0 : 0 < i := Nat.pos_of_ne_zero hz
    simp only [pty_ptr] at hc
    rw [cmp_pty_pos_iff] at hc
    refine ih ?_ (upInv_swap h hi0 hi hu hc)
    rw [swap_num_elts]
    exact lt_trans (parent_lt hi0) hi
  | case3 h i hz ju hc =>
    rw [heapify_up]
    simp only [dif_neg hz, if_neg hc]
    simp only [pty_ptr] at hc
    rw [not_cmp_pty_pos_iff] at hc
    intro j hj0 hjn
    by_cases hji : j = i
    · subst hji
      exact hc
    · exact hu.1 j hj0 hjn hji

/- The sift-down invariant is preserved by a downward swap, and
sift-down restores the heap order. -/

theorem downInv_swap_left (h : Heap) {i : Nat} (hb : 2 * i + 2 ≤ h.num_elts - 1)
    (hd : DownInv h i) (hl : h.ptys (2 * i + 1) < h.ptys i)
    (hlr : h.ptys (2 * i + 1) ≤ h.ptys (2 * i + 2)) :
    DownInv (swap h i (2 * i + 1)) (2 * i + 1) := by
  obtain ⟨d1, d2⟩ := hd
  have hij : i ≠ 2 * i + 1 := by omega
  have hjln : 2 * i + 1 < h.num_elts := by omega
  have hjrn : 2 * i + 2 < h.num_elts := by omega
  constructor
  · intro j hj0 hjn hjp
    rw [swap_num_elts] at hjn
    by_cases hji : j = i
    · subst hji
      have hp1 : (j - 1) / 2 ≠ j := by omega
      have hp2 : (j - 1) / 2 ≠ 2 * j + 1 := by omega
      rw [swap_ptys_other h hij hp1 hp2, swap_ptys_fst h hij]
      exact d2 hj0 (2 * j + 1) (by omega) hjln (by omega)
    · by_cases hjl : j = 2 * i + 1
      · subst hjl
        rw [show (2 * i + 1 - 1) / 2 = i from by omega, swap_ptys_fst h hij,
          swap_ptys_snd h hij]
        exact hl.le
      · by_cases hjr : j = 2 * i + 2
        · subst hjr
          rw [show (2 * i + 2 - 1) / 2 = i from by omega, swap_ptys_fst h hij,
            swap_ptys_other h hij (by omega) (by omega)]
          exact hlr
        · have hpnei : (j - 1) / 2 ≠ i := by
            intro hpe
            rcases (parent_eq_iff hj0).mp hpe with hc | hc
            exacts [hjl hc, hjr hc]
          rw [swap_ptys_other h hij hpnei hjp, swap_ptys_other h hij hji hjl]
          exact d1 j hj0 hjn hpnei
  · intro _ j hj0 hjn hpj
    rw [swap_num_elts] at hjn
    rw [show (2 * i + 1 - 1) / 2 = i from by omega, swap_ptys_fst h hij]
    have hjband : 4 * i + 3 ≤ j := by omega
    rw [swap_ptys_other h hij (by omega) (by omega)]
    have hedge := d1 j hj0 hjn (by omega)
    rw [hpj] at hedge
    exact hedge

theorem downInv_swap_right (h : Heap) {i : Nat} (hb : 2 * i + 2 ≤ h.num_elts - 1)
    (hd : DownInv h i) (hr : h.ptys (2 * i + 2) < h.ptys i)
    (hrl : h.ptys (2 * i + 2) ≤ h.ptys (2 * i + 1)) :
    DownInv (swap h i (2 * i + 2)) (2 * i + 2) := by
  obtain ⟨d1, d2⟩ := hd
  have hij : i ≠ 2 * i + 2 := by omega
  have hjln : 2 * i + 1 < h.num_elts := by omega
  have hjrn : 2 * i + 2 < h.num_elts := by omega
  constructor
  · intro j hj0 hjn hjp
    rw [swap_num_elts] at hjn
    by_cases hji : j = i
    · subst hji
      have hp1 : (j - 1) / 2 ≠ j := by omega
      have hp2 : (j - 1) / 2 ≠ 2 * j + 2 := by omega
      rw [swap_ptys_other h hij hp1 hp2, swap_ptys_fst h hij]
      exact d2 hj0 (2 * j + 2) (by omega) hjrn (by omega)
    · by_cases hjl : j = 2 * i + 1
      · subst hjl
        rw [show (2 * i + 1 - 1) / 2 = i from by omega, swap_ptys_fst h hij,
          swap_ptys_other h hij (by omega) (by omega)]
        exact hrl
      · by_cases hjr : j = 2 * i + 2
        · subst hjr
          rw [show (2 * i + 2 - 1) / 2 = i from by omega, swap_ptys_fst h hij,
            swap_ptys_snd h hij]
          exact hr.le
        · have hpnei : (j - 1) / 2 ≠ i := by
            intro hpe
            rcases (parent_eq_iff hj0).mp hpe with hc | hc
            exacts [hjl hc, hjr hc]
          rw [swap_ptys_other h hij hpnei hjp, swap_ptys_other h hij hji hjr]
          exact d1 j hj0 hjn hpnei
  · intro _ j hj0 hjn hpj
    rw [swap_num_elts] at hjn
    rw [show (2 * i + 2 - 1) / 2 = i from by omega, swap_ptys_fst h hij]
    have hjband : 4 * i + 5 ≤ j := by omega
    rw [swap_ptys_other h hij (by omega) (by omega)]
    have hedge := d1 j hj0 hjn (by omega)
    rw [hpj] at hedge
    exact hedge

theorem ord_of_downInv_stop (h : Heap) {i : Nat} (hd : DownInv h i)
    (hjl : h.ptys i ≤ h.ptys (2 * i + 1) ∨ h.num_elts ≤ 2 * i + 1)
    (hjr : h.ptys i ≤ h.ptys (2 * i + 2) ∨ h.num_elts ≤ 2 * i + 2) :
    HeapOrd h := by
  intro j hj0 hjn
  by_cases hpi : (j - 1) / 2 = i
  · rcases (parent_eq_iff hj0).mp hpi with hc | hc
    · subst hc
      rw [show (2 * i + 1 - 1) / 2 = i from by omega]
      rcases hjl with hle | hout
      · exact hle
      · omega
    · subst hc
      rw [show (2 * i + 2 - 1) / 2 = i from by omega]
      rcases hjr with hle | hout
      · exact hle
      · omega
  · exact hd.1 j hj0 hjn hpi

theorem ord_down_last_swap (h : Heap) {i : Nat}
    (hcond : i + 1 = h.num_elts - 1 - i) (hd : DownInv h i)
    (hgt : h.ptys (2 * i + 1) < h.ptys i) : HeapOrd (swap h i (2 * i + 1)) := by
  obtain ⟨d1, d2⟩ := hd
  have hn : h.num_elts = 2 * i + 2 := by omega
  have hij : i ≠ 2 * i + 1 := by omega
  intro j hj0 hjn
  rw [swap_num_elts] at hjn
  by_cases hji : j = i
  · subst hji
    have hp1 : (j - 1) / 2 ≠ j := by omega
    have hp2 : (j - 1) / 2 ≠ 2 * j + 1 := by omega
    rw [swap_ptys_other h hij hp1 hp2, swap_ptys_fst h hij]
    exact d2 hj0 (2 * j + 1) (by omega) (by omega) (by omega)
  · by_cases hjl : j = 2 * i + 1
    · subst hjl
      rw [show (2 * i + 1 - 1) / 2 = i from by omega, swap_ptys_fst h hij,
        swap_ptys_snd h hij]
      exact hgt.le
    · have hpne : (j - 1) / 2 ≠ i := by
        intro hpe
        rcases (parent_eq_iff hj0).mp hpe with hc | hc
        · exact hjl hc
        · omega
      have hpne2 : (j - 1) / 2 ≠ 2 * i + 1 := by omega
      rw [swap_ptys_other h hij hpne hpne2, swap_ptys_other h hij hji hjl]
      exact d1 j hj0 hjn hpne

theorem heapify_down_ord (h : Heap) (i : Nat) (hd : DownInv h i) :
    HeapOrd (heapify_down h i) := by
  induction h, i using heapify_down.induct with
  | case1 h i hg hc ih =>
    rw [heapify_down]
    simp only [dif_pos hg, if_pos hc]
    obtain ⟨hc1, hc2⟩ := hc
    simp only [pty_ptr] at hc1 hc2
    rw [cmp_pty_pos_iff] at hc1
    rw [cmp_pty_nonpos_iff] at hc2
    exact ih (downInv_swap_left h (by omega) hd hc1 hc2)
  | case2 h i hg hc1 hc2 ih =>
    rw [heapify_down]
    simp only [dif_pos hg, if_neg hc1, if_pos hc2]
    simp only [pty_ptr] at hc1 hc2
    rw [cmp_pty_pos_iff] at hc2
    have hrl : h.ptys (2 * i + 2) ≤ h.ptys (2 * i + 1) := by
      by_cases hx : cmp_pty (h.ptys i) (h.ptys (2 * i + 1)) > 0
      · have hy : ¬ cmp_pty (h.ptys (2 * i + 1)) (h.ptys (2 * i + 2)) ≤ 0 := by
          intro hy
          exact hc1 ⟨hx, hy⟩
        rw [cmp_pty_nonpos_iff] at hy
        omega
      · rw [not_cmp_pty_pos_iff] at hx
        omega
    exact ih (downInv_swap_right h (by omega) hd hc2 hrl)
  | case3 h i hg hc1 hc2 =>
    rw [heapify_down]
    simp only [dif_pos hg, if_neg hc1, if_neg hc2]
    have hdl : down_last h i = h := by
      unfold down_last
      rw [if_neg (by omega)]
    rw [hdl]
    simp only [pty_ptr] at hc1 hc2
    rw [not_cmp_pty_pos_iff] at hc2
    have hjl : h.ptys i ≤ h.ptys (2 * i + 1) := by
      by_cases hx : cmp_pty (h.ptys i) (h.ptys (2 * i + 1)) > 0
      · have hy : ¬ cmp_pty (h.ptys (2 * i + 1)) (h.ptys (2 * i + 2)) ≤ 0 := by
          intro hy
          exact hc1 ⟨hx, hy⟩
        rw [cmp_pty_nonpos_iff] at hy
        omega
      · rw [not_cmp_pty_pos_iff] at hx
        exact hx
    exact ord_of_downInv_stop h hd (Or.inl hjl) (Or.inl hc2)
  | case4 h i hg =>
    rw [heapify_down]
    simp only [dif_neg hg]
    unfold down_last
    split_ifs with w1 w2
    · simp only [pty_ptr] at w2
      rw [cmp_pty_pos_iff] at w2
      exact ord_down_last_swap h w1 hd w2
    · simp only [pty_ptr] at w2
      rw [not_cmp_pty_pos_iff] at w2
      exact ord_of_downInv_stop h hd (Or.inl w2) (Or.inr (by omega))
    · exact ord_of_downInv_stop h hd (Or.inr (by omega)) (Or.inr (by omega))

/- Sift routines are inert on an already ordered heap, and the root of an
ordered heap is minimal. -/

theorem down_last_id_of_ord (h : Heap) (i : Nat) (ho : HeapOrd h) :
    down_last h i = h := by
  unfold down_last
  split_ifs with w1 w2
  · exfalso
    simp only [pty_ptr] at w2
    rw [cmp_pty_pos_iff] at w2
    have he := ho (2 * i + 1) (by omega) (by omega)
    rw [show (2 * i + 1 - 1) / 2 = i from by omega] at he
    omega
  · rfl
  · rfl

theorem heapify_down_id_of_ord (h : Heap) (i : Nat) (ho : HeapOrd h) :
    heapify_down h i = h := by
  by_cases hg : i + 2 ≤ h.num_elts - 1 - i
  · have e1 := ho (2 * i + 1) (by omega) (by omega)
    rw [show (2 * i + 1 - 1) / 2 = i from by omega] at e1
    have e2 := ho (2 * i + 2) (by omega) (by omega)
    rw [show (2 * i + 2 - 1) / 2 = i from by omega] at e2
    have hc1 : ¬ (cmp_pty (pty_ptr h i) (pty_ptr h (2 * i + 1)) > 0 ∧
        cmp_pty (pty_ptr h (2 * i + 1)) (pty_ptr h (2 * i + 2)) ≤ 0) := by
      intro hand
      have := hand.1
      simp only [pty_ptr] at this
      rw [cmp_pty_pos_iff] at this
      omega
    have hc2 : ¬ cmp_pty (pty_ptr h i) (pty_ptr h (2 * i + 2)) > 0 := by
      simp only [pty_ptr]
      rw [not_cmp_pty_pos_iff]
      exact e2
    rw [heapify_down]
    simp only [dif_pos hg, if_neg hc1, if_neg hc2]
    exact down_last_id_of_ord h i ho
  · rw [heapify_down]
    simp only [dif_neg hg]
    exact down_last_id_of_ord h i ho

theorem down_last_swaps_of_ord (h : Heap) (i : Nat) (ho : HeapOrd h) :
    down_last_swaps h i = 0 := by
  unfold down_last_swaps
  split_ifs with w1 w2
  · exfalso
    simp only [pty_ptr] at w2
    rw [cmp_pty_pos_iff] at w2
    have he := ho (2 * i + 1) (by omega) (by omega)
    rw [show (2 * i + 1 - 1) / 2 = i from by omega] at he
    omega
  · rfl
  · rfl

theorem heapify_down_swaps_of_ord (h : Heap) (i : Nat) (ho : HeapOrd h) :
    heapify_down_swaps h i = 0 := by
  by_cases hg : i + 2 ≤ h.num_elts - 1 - i
  · have e1 := ho (2 * i + 1) (by omega) (by omega)
    rw [show (2 * i + 1 - 1) / 2 = i from by omega] at e1
    have e2 := ho (2 * i + 2) (by omega) (by omega)
    rw [show (2 * i + 2 - 1) / 2 = i from by omega] at e2
    have hc1 : ¬ (cmp_pty (pty_ptr h i) (pty_ptr h (2 * i + 1)) > 0 ∧
        cmp_pty (pty_ptr h (2 * i + 1)) (pty_ptr h (2 * i + 2)) ≤ 0) := by
      intro hand
      have := hand.1
      simp only [pty_ptr] at this
      rw [cmp_pty_pos_iff] at this
      omega
    have hc2 : ¬ cmp_pty (pty_ptr h i) (pty_ptr h (2 * i + 2)) > 0 := by
      simp only [pty_ptr]
      rw [not_cmp_pty_pos_iff]
      exact e2
    rw [heapify_down_swaps]
    simp only [dif_pos hg, if_neg hc1, if_neg hc2]
    exact down_last_swaps_of_ord h i ho
  · rw [heapify_down_swaps]
    simp only [dif_neg hg]
    exact down_last_swaps_of_ord h i ho

theorem heapify_up_zero (h : Heap) : heapify_up h 0 = h := by
  rw [heapify_up]
  simp

theorem heapify_up_id_of_nolt (h : Heap) (i : Nat)
    (hc : ¬ cmp_pty (pty_ptr h ((i - 1) / 2)) (pty_ptr h i) > 0) :
    heapify_up h i = h := by
  by_cases hz : i = 0
  · subst hz
    exact heapify_up_zero h
  · rw [heapify_up]
    simp only [dif_neg hz, if_neg hc]

theorem heapify_up_swaps_pos (h : Heap) (i : Nat)
    (hs : 0 < heapify_up_swaps h i) :
    i ≠ 0 ∧ cmp_pty (pty_ptr h ((i - 1) / 2)) (pty_ptr h i) > 0 := by
  by_cases hz : i = 0
  · rw [heapify_up_swaps] at hs
    simp [hz] at hs
  · constructor
    · exact hz
    · by_contra hc
      rw [heapify_up_swaps] at hs
      simp only [dif_neg hz, if_neg hc] at hs
      omega

theorem root_min (h : Heap) (ho : HeapOrd h) :
    ∀ i, i < h.num_elts → h.ptys 0 ≤ h.ptys i := by
  intro i
  induction i using Nat.strong_induction_on with
  | _ i ih =>
    intro hin
    by_cases hi0 : i = 0
    · subst hi0
      exact le_refl _
    · have hi0p : 0 < i := Nat.pos_of_ne_zero hi0
      have hp := parent_lt hi0p
      have h1 := ih ((i - 1) / 2) hp (lt_trans hp hin)
      have h2 := ho i hi0p hin
      omega

/- Invariant establishment for push and update. -/

theorem upInv_overwrite (h h1 : Heap) (ix : Nat) (p : Int)
    (e1 : h1.ptys = upd h.ptys ix p) (e2 : h1.num_elts = h.num_elts)
    (ho : HeapOrd h) (hixn : ix < h.num_elts) (hix0 : 0 < ix)
    (hlt : p < h.ptys ((ix - 1) / 2)) : UpInv h1 ix := by
  have hpar := parent_lt hix0
  constructor
  · intro j hj0 hjn hjne
    rw [e2] at hjn
    rw [e1, upd_apply, upd_apply, if_neg hjne]
    by_cases hpj : (j - 1) / 2 = ix
    · rw [if_pos hpj]
      have t1 := ho ix hix0 hixn
      have t2 := ho j hj0 hjn
      rw [hpj] at t2
      omega
    · rw [if_neg hpj]
      exact ho j hj0 hjn
  · intro _ j hj0 hjn hpj
    rw [e2] at hjn
    rw [e1, upd_apply, upd_apply, if_neg (by omega : ¬ (ix - 1) / 2 = ix),
      if_neg (by omega : ¬ j = ix)]
    have t1 := ho ix hix0 hixn
    have t2 := ho j hj0 hjn
    rw [hpj] at t2
    omega

theorem downInv_overwrite (h h1 : Heap) (ix : Nat) (p : Int)
    (e1 : h1.ptys = upd h.ptys ix p) (e2 : h1.num_elts = h.num_elts)
    (ho : HeapOrd h) (hixn : ix < h.num_elts)
    (hub : ix = 0 ∨ h1.ptys ((ix - 1) / 2) ≤ h1.ptys ix) : DownInv h1 ix := by
  constructor
  · intro j hj0 hjn hpj
    rw [e2] at hjn
    by_cases hji : j = ix
    · subst hji
      rcases hub with hz | hle
      · omega
      · exact hle
    · rw [e1, upd_apply, upd_apply, if_neg hpj, if_neg hji]
      exact ho j hj0 hjn
  · intro hx0 j hj0 hjn hpj
    rw [e2] at hjn
    have hjx : ix < j := by omega
    rw [e1, upd_apply, upd_apply, if_neg (by omega : ¬ (ix - 1) / 2 = ix),
      if_neg (by omega : ¬ j = ix)]
    have t1 := ho ix hx0 hixn
    have t2 := ho j hj0 hjn
    rw [hpj] at t2
    omega

theorem upInv_push (h h2 : Heap) (p : Int)
    (e1 : h2.ptys = upd h.ptys h.num_elts p)
    (e2 : h2.num_elts = h.num_elts + 1)
    (ho : HeapOrd h) : UpInv h2 h.num_elts := by
  constructor
  · intro j hj0 hjn hjne
    rw [e2] at hjn
    have hjlt : j < h.num_elts := by omega
    rw [e1, upd_apply, upd_apply, if_neg hjne, if_neg (by omega : ¬ (j - 1) / 2 = h.num_elts)]
    exact ho j hj0 hjlt
  · intro _ j hj0 hjn hpj
    rw [e2] at hjn
    omega

/- Growth facts. -/

theorem heap_grow_some (h h1 : Heap) (hpos : 0 < h.heap_size)
    (hg : heap_grow h = some h1) :
    h1.ptys = h.ptys ∧ h1.elts = h.elts ∧ h1.ht = h.ht ∧
    h1.num_elts = h.num_elts ∧ h1.heap_max_size = h.heap_max_size ∧
    h.heap_size < h.heap_max_size ∧ h.heap_size < h1.heap_size ∧
    h1.heap_size ≤ h.heap_max_size := by
  unfold heap_grow at hg
  split_ifs at hg with hlt hcl
  · obtain rfl := Option.some_inj.mp hg
    refine ⟨rfl, rfl, rfl, rfl, rfl, hlt, ?_, ?_⟩
    · show h.heap_size < h.heap_max_size
      exact hlt
    · show h.heap_max_size ≤ h.heap_max_size
      exact le_refl _
  · obtain rfl := Option.some_inj.mp hg
    refine ⟨rfl, rfl, rfl, rfl, rfl, hlt, ?_, ?_⟩
    · show h.heap_size < h.heap_size * 2
      omega
    · show h.heap_size * 2 ≤ h.heap_max_size
      omega

theorem heap_grow_none (h : Heap) (hg : heap_grow h = none) :
    ¬ h.heap_size < h.heap_max_size := by
  unfold heap_grow at hg
  by_cases hlt : h.heap_size < h.heap_max_size
  · rw [if_pos hlt] at hg
    cases hg
  · exact hlt

/- Unfolding equations and invariant preservation for push and update. -/

theorem push_eq (h : Heap) (p : Int) (e : Nat) (hm : Heap)
    (hmid : (if h.heap_size = h.num_elts then heap_grow h else some h) = some hm) :
    heap_uint32_push h p e =
      some (heapify_up
        { hm with
          elts := upd hm.elts hm.num_elts e,
          ptys := upd hm.ptys hm.num_elts p,
          ht := ht_div_uint32_insert hm.ht e hm.num_elts,
          num_elts := hm.num_elts + 1 } hm.num_elts) := by
  unfold heap_uint32_push
  rw [hmid]

theorem push_eq_none (h : Heap) (p : Int) (e : Nat)
    (hmid : (if h.heap_size = h.num_elts then heap_grow h else some h) = none) :
    heap_uint32_push h p e = none := by
  unfold heap_uint32_push
  rw [hmid]

theorem push_hinv (h h1 : Heap) (p : Int) (e : Nat) (hv : HeapInv h)
    (habs : ht_div_uint32_search h.ht e = none)
    (hp : heap_uint32_push h p e = some h1) : HeapInv h1 := by
  rcases hmid : (if h.heap_size = h.num_elts then heap_grow h else some h) with _ | hm
  · rw [push_eq_none h p e hmid] at hp
    cases hp
  · rw [push_eq h p e hm hmid] at hp
    obtain rfl := Option.some_inj.mp hp
    have hmfacts : hm.ptys = h.ptys ∧ hm.elts = h.elts ∧ hm.ht = h.ht ∧
        hm.num_elts = h.num_elts ∧ hm.heap_max_size = h.heap_max_size ∧
        h.num_elts < hm.heap_size ∧ hm.heap_size ≤ hm.heap_max_size := by
      by_cases hc : h.heap_size = h.num_elts
      · rw [if_pos hc] at hmid
        obtain ⟨g1, g2, g3, g4, g5, g6, g7, g8⟩ := heap_grow_some h hm hv.size_pos hmid
        exact ⟨g1, g2, g3, g4, g5, by omega, by omega⟩
      · rw [if_neg hc] at hmid
        obtain rfl := Option.some_inj.mp hmid
        have := hv.ne_le
        exact ⟨rfl, rfl, rfl, rfl, rfl, by omega, hv.size_le⟩
    obtain ⟨m1, m2, m3, m4, m5, m6, m7⟩ := hmfacts
    have hOm : HeapOrd hm := by
      intro j hj0 hjn
      rw [m1]
      exact hv.ord j hj0 (by omega)
    have hcm : Coherent hm := by
      refine ⟨?_, ?_, ?_⟩
      · intro k hk
        rw [m2, m3]
        exact hv.coh.1 k (by omega)
      · intro e2 ha
        rw [m3]
        refine hv.coh.2.1 e2 ?_
        intro k hk
        have := ha k (by omega)
        rwa [m2] at this
      · rw [m3]
        exact hv.coh.2.2
    have habsm : ht_div_uint32_search hm.ht e = none := by
      rw [m3]
      exact habs
    constructor
    · rw [heapify_up_heap_max_size]
      show hm.heap_max_size = 2 ^ 32 - 2
      rw [m5]
      exact hv.maxsz
    · rw [heapify_up_heap_size]
      show 0 < hm.heap_size
      omega
    · rw [heapify_up_heap_size, heapify_up_heap_max_size]
      show hm.heap_size ≤ hm.heap_max_size
      exact m7
    · rw [heapify_up_num_elts, heapify_up_heap_size]
      show hm.num_elts + 1 ≤ hm.heap_size
      omega
    · refine heapify_up_ord _ _ ?_ ?_
      · show hm.num_elts < hm.num_elts + 1
        omega
      · exact upInv_push hm _ p rfl rfl hOm
    · refine heapify_up_coh _ _ ?_ ?_
      · show hm.num_elts < hm.num_elts + 1
        omega
      · refine ⟨?_, ?_, ?_⟩
        · intro k hk
          have hk2 : k < hm.num_elts + 1 := hk
          show ht_div_uint32_search (ht_div_uint32_insert hm.ht e hm.num_elts)
            (upd hm.elts hm.num_elts e k) = some k
          by_cases hkn : k = hm.num_elts
          · subst hkn
            rw [upd_same]
            exact search_insert_self _ _ _
          · rw [upd_ne _ _ _ hkn]
            have hne2 : hm.elts k ≠ e := by
              intro heq
              have hx := hcm.1 k (by omega)
              rw [heq, habsm] at hx
              cases hx
            rw [search_insert_ne _ _ _ hne2]
            exact hcm.1 k (by omega)
        · intro e2 ha
          show ht_div_uint32_search (ht_div_uint32_insert hm.ht e hm.num_elts) e2 = none
          have hen : e ≠ e2 := by
            have h3 : upd hm.elts hm.num_elts e hm.num_elts ≠ e2 :=
              ha hm.num_elts (by show hm.num_elts < hm.num_elts + 1; omega)
            rwa [upd_same] at h3
          rw [search_insert_ne _ _ _ (Ne.symm hen)]
          refine hcm.2.1 e2 ?_
          intro k hk
          have h4 : upd hm.elts hm.num_elts e k ≠ e2 :=
            ha k (by show k < hm.num_elts + 1; omega)
          rwa [upd_ne _ _ _ (by omega)] at h4
        · show ((ht_div_uint32_insert hm.ht e hm.num_elts).map Prod.fst).Nodup
          exact insert_keys_nodup _ _ _ hcm.2.2

theorem update_eq (h : Heap) (p : Int) (e : Nat) (ix : Nat)
    (hs : ht_div_uint32_search h.ht e = some ix) :
    heap_uint32_update h p e =
      some (heapify_down (heapify_up { h with ptys := upd h.ptys ix p } ix) ix) := by
  unfold heap_uint32_update
  rw [hs]

theorem update_eq_none (h : Heap) (p : Int) (e : Nat)
    (hs : ht_div_uint32_search h.ht e = none) :
    heap_uint32_update h p e = none := by
  unfold heap_uint32_update
  rw [hs]

theorem update_hinv (h h1 : Heap) (p : Int) (e : Nat) (hv : HeapInv h)
    (hu : heap_uint32_update h p e = some h1) : HeapInv h1 := by
  rcases hs : ht_div_uint32_search h.ht e with _ | ix
  · rw [update_eq_none h p e hs] at hu
    cases hu
  · rw [update_eq h p e ix hs] at hu
    obtain rfl := Option.some_inj.mp hu
    have hixn : ix < h.num_elts := (coh_search_some h hv.coh hs).1
    have hcov : Coherent { h with ptys := upd h.ptys ix p } := hv.coh
    have hfields : ∀ hx : Heap, hx.heap_max_size = h.heap_max_size →
        hx.heap_size = h.heap_size → hx.num_elts = h.num_elts →
        HeapOrd hx → Coherent hx → HeapInv hx := by
      intro hx f1 f2 f3 ho hc
      constructor
      · rw [f1]; exact hv.maxsz
      · rw [f2]; exact hv.size_pos
      · rw [f1, f2]; exact hv.size_le
      · rw [f2, f3]; exact hv.ne_le
      · exact ho
      · exact hc
    by_cases hix0 : ix = 0
    · have hid : heapify_up { h with ptys := upd h.ptys ix p } ix =
          { h with ptys := upd h.ptys ix p } := by
        rw [hix0]
        exact heapify_up_zero _
      rw [hid]
      have hdi : DownInv { h with ptys := upd h.ptys ix p } ix :=
        downInv_overwrite h _ ix p rfl rfl hv.ord hixn (Or.inl hix0)
      refine hfields _ ?_ ?_ ?_ (heapify_down_ord _ ix hdi) (heapify_down_coh _ ix hcov)
      · rw [heapify_down_heap_max_size]
      · rw [heapify_down_heap_size]
      · rw [heapify_down_num_elts]
    · by_cases hcmp : cmp_pty (pty_ptr { h with ptys := upd h.ptys ix p } ((ix - 1) / 2))
          (pty_ptr { h with ptys := upd h.ptys ix p } ix) > 0
      · have hlt2 : p < h.ptys ((ix - 1) / 2) := by
          simp only [pty_ptr] at hcmp
          rw [cmp_pty_pos_iff] at hcmp
          have hred : upd h.ptys ix p ix < upd h.ptys ix p ((ix - 1) / 2) := hcmp
          rwa [upd_same, upd_ne _ _ _ (by
            have := parent_lt (Nat.pos_of_ne_zero hix0)
            omega : ¬ (ix - 1) / 2 = ix)] at hred
        have hui : UpInv { h with ptys := upd h.ptys ix p } ix :=
          upInv_overwrite h _ ix p rfl rfl hv.ord hixn (Nat.pos_of_ne_zero hix0) hlt2
        have hOrdUp : HeapOrd (heapify_up { h with ptys := upd h.ptys ix p } ix) :=
          heapify_up_ord _ ix hixn hui
        rw [heapify_down_id_of_ord _ ix hOrdUp]
        refine hfields _ ?_ ?_ ?_ hOrdUp (heapify_up_coh _ ix hixn hcov)
        · rw [heapify_up_heap_max_size]
        · rw [heapify_up_heap_size]
        · rw [heapify_up_num_elts]
      · have hid : heapify_up { h with ptys := upd h.ptys ix p } ix =
            { h with ptys := upd h.ptys ix p } := heapify_up_id_of_nolt _ ix hcmp
        rw [hid]
        have hle : upd h.ptys ix p ((ix - 1) / 2) ≤ upd h.ptys ix p ix := by
          simp only [pty_ptr] at hcmp
          rw [not_cmp_pty_pos_iff] at hcmp
          exact hcmp
        have hdi : DownInv { h with ptys := upd h.ptys ix p } ix :=
          downInv_overwrite h _ ix p rfl rfl hv.ord hixn (Or.inr hle)
        refine hfields _ ?_ ?_ ?_ (heapify_down_ord _ ix hdi) (heapify_down_coh _ ix hcov)
        · rw [heapify_down_heap_max_size]
        · rw [heapify_down_heap_size]
        · rw [heapify_down_num_elts]


/- Unfolding equation and invariant preservation for pop. -/

theorem pop_mid_num_elts (h : Heap) : (pop_mid h).num_elts = h.num_elts - 1 := by
  show (swap h 0 (h.num_elts - 1)).num_elts - 1 = h.num_elts - 1
  rw [swap_num_elts]

theorem pop_mid_heap_size (h : Heap) : (pop_mid h).heap_size = h.heap_size := by
  show (swap h 0 (h.num_elts - 1)).heap_size = h.heap_size
  rw [swap_heap_size]

theorem pop_mid_heap_max_size (h : Heap) :
    (pop_mid h).heap_max_size = h.heap_max_size := by
  show (swap h 0 (h.num_elts - 1)).heap_max_size = h.heap_max_size
  rw [swap_heap_max_size]

theorem pop_mid_ptys (h : Heap) : (pop_mid h).ptys = (swap h 0 (h.num_elts - 1)).ptys :=
  rfl

theorem pop_eq (h : Heap) (p : Int) (e : Nat) (h0 : ¬ h.num_elts = 0) :
    heap_uint32_pop h p e =
      ((if 0 < (pop_mid h).num_elts then heapify_down (pop_mid h) 0 else pop_mid h),
       pty_ptr h 0, elt_ptr h 0) := by
  unfold heap_uint32_pop
  rw [if_neg h0]
  rfl

theorem pop_eq_empty (h : Heap) (p : Int) (e : Nat) (h0 : h.num_elts = 0) :
    heap_uint32_pop h p e = (h, p, e) := by
  unfold heap_uint32_pop
  rw [if_pos h0]

theorem pop_fst (h : Heap) (p : Int) (e : Nat) (h0 : ¬ h.num_elts = 0) :
    (heap_uint32_pop h p e).1 =
      if 0 < (pop_mid h).num_elts then heapify_down (pop_mid h) 0 else pop_mid h := by
  rw [pop_eq h p e h0]

theorem pop_out (h : Heap) (p : Int) (e : Nat) (h0 : ¬ h.num_elts = 0) :
    (heap_uint32_pop h p e).2.1 = h.ptys 0 ∧
    (heap_uint32_pop h p e).2.2 = h.elts 0 := by
  rw [pop_eq h p e h0]
  exact ⟨rfl, rfl⟩

theorem pop_num_elts (h : Heap) (p : Int) (e : Nat) (h0 : ¬ h.num_elts = 0) :
    (heap_uint32_pop h p e).1.num_elts = h.num_elts - 1 := by
  rw [pop_fst h p e h0]
  by_cases hc : 0 < (pop_mid h).num_elts
  · rw [if_pos hc, heapify_down_num_elts, pop_mid_num_elts]
  · rw [if_neg hc, pop_mid_num_elts]

theorem pop_heap_size (h : Heap) (p : Int) (e : Nat) :
    (heap_uint32_pop h p e).1.heap_size = h.heap_size := by
  by_cases h0 : h.num_elts = 0
  · rw [pop_eq_empty h p e h0]
  · rw [pop_fst h p e h0]
    by_cases hc : 0 < (pop_mid h).num_elts
    · rw [if_pos hc, heapify_down_heap_size, pop_mid_heap_size]
    · rw [if_neg hc, pop_mid_heap_size]

theorem pop_heap_max_size (h : Heap) (p : Int) (e : Nat) :
    (heap_uint32_pop h p e).1.heap_max_size = h.heap_max_size := by
  by_cases h0 : h.num_elts = 0
  · rw [pop_eq_empty h p e h0]
  · rw [pop_fst h p e h0]
    by_cases hc : 0 < (pop_mid h).num_elts
    · rw [if_pos hc, heapify_down_heap_max_size, pop_mid_heap_max_size]
    · rw [if_neg hc, pop_mid_heap_max_size]

theorem pop_mid_coh (h : Heap) (hv : HeapInv h) (h0 : ¬ h.num_elts = 0) :
    Coherent (pop_mid h) := by
  have hn0 : 0 < h.num_elts := Nat.pos_of_ne_zero h0
  have hc1 : Coherent (swap h 0 (h.num_elts - 1)) :=
    swap_coh h hn0 (by omega) hv.coh
  have he : (swap h 0 (h.num_elts - 1)).elts (h.num_elts - 1) = elt_ptr h 0 := by
    by_cases hz : h.num_elts - 1 = 0
    · rw [hz, swap_self]
      rfl
    · exact swap_elts_snd h (by omega)
  have hrm : (ht_div_uint32_remove (swap h 0 (h.num_elts - 1)).ht (elt_ptr h 0) 0).1 =
      assocErase (swap h 0 (h.num_elts - 1)).ht (elt_ptr h 0) := by
    have hsr := hc1.1 (h.num_elts - 1) (by rw [swap_num_elts]; omega)
    rw [he] at hsr
    unfold ht_div_uint32_remove
    rw [hsr]
  have hdis := coh_distinct _ hc1
  refine ⟨?_, ?_, ?_⟩
  · intro k hk
    rw [pop_mid_num_elts] at hk
    show ht_div_uint32_search
      ((ht_div_uint32_remove (swap h 0 (h.num_elts - 1)).ht (elt_ptr h 0) 0).1)
      ((swap h 0 (h.num_elts - 1)).elts k) = some k
    rw [hrm]
    have hkne : (swap h 0 (h.num_elts - 1)).elts k ≠ elt_ptr h 0 := by
      intro heq
      rw [← he] at heq
      have := hdis k (h.num_elts - 1) (by rw [swap_num_elts]; omega)
        (by rw [swap_num_elts]; omega) heq
      omega
    rw [search_erase_ne _ _ hkne]
    exact hc1.1 k (by rw [swap_num_elts]; omega)
  · intro e2 ha
    show ht_div_uint32_search
      ((ht_div_uint32_remove (swap h 0 (h.num_elts - 1)).ht (elt_ptr h 0) 0).1)
      e2 = none
    rw [hrm]
    by_cases he2 : e2 = elt_ptr h 0
    · subst he2
      exact search_erase_self _ _ hc1.2.2
    · rw [search_erase_ne _ _ (fun hx => he2 hx)]
      refine hc1.2.1 e2 ?_
      intro k hk
      rw [swap_num_elts] at hk
      by_cases hkl : k = h.num_elts - 1
      · subst hkl
        rw [he]
        exact fun hx => he2 hx.symm
      · refine ha k ?_
        rw [pop_mid_num_elts]
        omega
  · show (((ht_div_uint32_remove (swap h 0 (h.num_elts - 1)).ht (elt_ptr h 0) 0).1).map
      Prod.fst).Nodup
    rw [hrm]
    exact erase_keys_nodup _ _ hc1.2.2

theorem pop_mid_downInv (h : Heap) (hv : HeapInv h) (_hne0 : ¬ h.num_elts = 0) :
    DownInv (pop_mid h) 0 := by
  constructor
  · intro j hj0 hjn hpj
    rw [pop_mid_num_elts] at hjn
    show (swap h 0 (h.num_elts - 1)).ptys ((j - 1) / 2) ≤
      (swap h 0 (h.num_elts - 1)).ptys j
    by_cases hz : (0 : Nat) = h.num_elts - 1
    · omega
    · rw [swap_ptys_other h hz (by omega) (by omega),
        swap_ptys_other h hz (by omega) (by omega)]
      exact hv.ord j hj0 (by omega)
  · intro hx0
    omega

theorem pop_hinv (h : Heap) (p : Int) (e : Nat) (hv : HeapInv h) :
    HeapInv (heap_uint32_pop h p e).1 := by
  by_cases h0 : h.num_elts = 0
  · rw [pop_eq_empty h p e h0]
    exact hv
  · constructor
    · rw [pop_heap_max_size]
      exact hv.maxsz
    · rw [pop_heap_size]
      exact hv.size_pos
    · rw [pop_heap_size, pop_heap_max_size]
      exact hv.size_le
    · rw [pop_heap_size, pop_num_elts h p e h0]
      have := hv.ne_le
      omega
    · rw [pop_fst h p e h0]
      by_cases hc : 0 < (pop_mid h).num_elts
      · rw [if_pos hc]
        exact heapify_down_ord _ 0 (pop_mid_downInv h hv h0)
      · rw [if_neg hc]
        intro j hj0 hjn
        rw [pop_mid_num_elts] at hc hjn
        omega
    · rw [pop_fst h p e h0]
      by_cases hc : 0 < (pop_mid h).num_elts
      · rw [if_pos hc]
        exact heapify_down_coh _ 0 (pop_mid_coh h hv h0)
      · rw [if_neg hc]
        exact pop_mid_coh h hv h0

theorem pop_LB (h : Heap) (p : Int) (e : Nat) (hv : HeapInv h)
    (h0 : ¬ h.num_elts = 0) : LB (h.ptys 0) (heap_uint32_pop h p e).1 := by
  have hn0 : 0 < h.num_elts := Nat.pos_of_ne_zero h0
  have hlb : LB (h.ptys 0) h := fun k hk => root_min h hv.ord k hk
  have hlb1 : LB (h.ptys 0) (swap h 0 (h.num_elts - 1)) :=
    swap_LB h hn0 (by omega) hlb
  have hlb2 : LB (h.ptys 0) (pop_mid h) := by
    intro k hk
    rw [pop_mid_num_elts] at hk
    show h.ptys 0 ≤ (swap h 0 (h.num_elts - 1)).ptys k
    refine hlb1 k ?_
    rw [swap_num_elts]
    omega
  rw [pop_fst h p e h0]
  by_cases hc : 0 < (pop_mid h).num_elts
  · rw [if_pos hc]
    exact heapify_down_LB _ 0 hlb2
  · rw [if_neg hc]
    exact hlb2

/- The invariant holds in every reachable state. -/

theorem reach_hinv (h : Heap) (hr : Reachable h) : HeapInv h := by
  induction hr with
  | init c hc1 hc2 =>
    constructor
    · rfl
    · exact hc1
    · exact hc2
    · exact Nat.zero_le _
    · intro j hj0 hjn
      have hz : (heap_uint32_init c).num_elts = 0 := rfl
      omega
    · refine ⟨?_, ?_, ?_⟩
      · intro k hk
        have hz : (heap_uint32_init c).num_elts = 0 := rfl
        omega
      · intro e _
        rfl
      · show (([] : List (Nat × Nat)).map Prod.fst).Nodup
        simp
  | push p e hr habs hp ih => exact push_hinv _ _ p e ih habs hp
  | update p e hr hu ih => exact update_hinv _ _ p e ih hu
  | pop p e hr ih => exact pop_hinv _ p e ih

/- Draining the heap by repeated pop. -/

theorem popDrain_num_elts :
    ∀ (fuel : Nat) (h : Heap), h.num_elts ≤ fuel →
      (popDrain h fuel).1.num_elts = 0 := by
  intro fuel
  induction fuel with
  | zero =>
    intro h hle
    show h.num_elts = 0
    omega
  | succ n ih =>
    intro h hle
    by_cases h0 : h.num_elts = 0
    · simp only [popDrain]
      rw [if_pos h0]
      exact h0
    · simp only [popDrain]
      rw [if_neg h0]
      show (popDrain (heap_uint32_pop h 0 0).1 n).1.num_elts = 0
      refine ih _ ?_
      rw [pop_num_elts _ _ _ h0]
      omega

theorem popDrain_sorted :
    ∀ (fuel : Nat) (h : Heap), HeapInv h →
      List.Chain' (fun a b : Int => a ≤ b) (popDrain h fuel).2 := by
  intro fuel
  induction fuel with
  | zero =>
    intro h _
    exact List.chain'_nil
  | succ n ih =>
    intro h hv
    by_cases h0 : h.num_elts = 0
    · simp only [popDrain]
      rw [if_pos h0]
      exact List.chain'_nil
    · simp only [popDrain]
      rw [if_neg h0]
      show List.Chain' _
        ((heap_uint32_pop h 0 0).2.1 :: (popDrain (heap_uint32_pop h 0 0).1 n).2)
      rw [List.chain'_cons']
      refine ⟨?_, ih _ (pop_hinv h 0 0 hv)⟩
      intro b hb
      cases n with
      | zero => simp [popDrain] at hb
      | succ m =>
        by_cases h0b : (heap_uint32_pop h 0 0).1.num_elts = 0
        · simp only [popDrain, if_pos h0b] at hb
          simp at hb
        · simp only [popDrain, if_neg h0b] at hb
          obtain rfl : (heap_uint32_pop (heap_uint32_pop h 0 0).1 0 0).2.1 = b := by
            simpa using hb
          rw [(pop_out _ 0 0 h0b).1, (pop_out h 0 0 h0).1]
          exact pop_LB h 0 0 hv h0 0 (by omega)

/- Sift-up carries a strict minimum to the root. -/

theorem heapify_up_min (h : Heap) (i : Nat) (hi : i < h.num_elts)
    (hmin : ∀ k, k < h.num_elts → k ≠ i → h.ptys i < h.ptys k) :
    (heapify_up h i).ptys 0 = h.ptys i ∧ (heapify_up h i).elts 0 = h.elts i := by
  induction h, i using heapify_up.induct with
  | case1 h =>
    rw [heapify_up]
    simp only [dif_pos rfl]
    exact ⟨rfl, rfl⟩
  | case2 h i hz ju hc ih =>
    rw [heapify_up]
    simp only [dif_neg hz, if_pos hc]
    have hi0 : 0 < i := Nat.pos_of_ne_zero hz
    have hjui : ju < i := parent_lt hi0
    have hij : i ≠ ju := by omega
    have h1 : (swap h i ju).ptys ju = h.ptys i := swap_ptys_snd h hij
    have h2 : (swap h i ju).elts ju = h.elts i := swap_elts_snd h hij
    have hmin2 : ∀ k, k < (swap h i ju).num_elts → k ≠ ju →
        (swap h i ju).ptys ju < (swap h i ju).ptys k := by
      intro k hk hkju
      rw [swap_num_elts] at hk
      rw [h1]
      by_cases hki : k = i
      · subst hki
        rw [swap_ptys_fst h hij]
        simp only [pty_ptr] at hc
        rw [cmp_pty_pos_iff] at hc
        exact hc
      · rw [swap_ptys_other h hij hki hkju]
        exact hmin k hk hki
    have hres := ih (by rw [swap_num_elts]; omega) hmin2
    exact ⟨hres.1.trans h1, hres.2.trans h2⟩
  | case3 h i hz ju hc =>
    exfalso
    have hi0 : 0 < i := Nat.pos_of_ne_zero hz
    have hjui : ju < i := parent_lt hi0
    simp only [pty_ptr] at hc
    rw [not_cmp_pty_pos_iff] at hc
    have := hmin ju (by omega) (by omega)
    omega

/- Bounds on the slots accessed by sift-down, and exactness of its guard
arithmetic in uint32. -/

theorem down_last_accesses_bound (h : Heap) (i : Nat) :
    ∀ j ∈ down_last_accesses h i, j < h.num_elts := by
  unfold down_last_accesses
  split_ifs with w1
  · intro j hj
    simp only [List.mem_cons, List.not_mem_nil, or_false] at hj
    rcases hj with rfl | rfl <;> omega
  · intro j hj
    simp at hj

theorem down_accesses_bound (h : Heap) (i : Nat) (hin : i < h.num_elts) :
    ∀ j ∈ heapify_down_accesses h i, j < h.num_elts := by
  induction h, i using heapify_down_accesses.induct with
  | case1 h i hg hc ih =>
    rw [heapify_down_accesses]
    simp only [dif_pos hg, if_pos hc]
    intro j hj
    simp only [List.mem_cons] at hj
    rcases hj with rfl | rfl | rfl | hj
    · omega
    · omega
    · omega
    · have := ih (by rw [swap_num_elts]; omega) j hj
      rw [swap_num_elts] at this
      exact this
  | case2 h i hg hc1 hc2 ih =>
    rw [heapify_down_accesses]
    simp only [dif_pos hg, if_neg hc1, if_pos hc2]
    intro j hj
    simp only [List.mem_cons] at hj
    rcases hj with rfl | rfl | rfl | hj
    · omega
    · omega
    · omega
    · have := ih (by rw [swap_num_elts]; omega) j hj
      rw [swap_num_elts] at this
      exact this
  | case3 h i hg hc1 hc2 =>
    rw [heapify_down_accesses]
    simp only [dif_pos hg, if_neg hc1, if_neg hc2]
    intro j hj
    simp only [List.mem_cons] at hj
    rcases hj with rfl | rfl | rfl | hj
    · omega
    · omega
    · omega
    · exact down_last_accesses_bound h i j hj
  | case4 h i hg =>
    rw [heapify_down_accesses]
    simp only [dif_neg hg]
    exact down_last_accesses_bound h i

theorem down_guard_exact (n i : Nat) (h1 : 0 < n) (h2 : n ≤ 2 ^ 32 - 2)
    (h3 : i < n) :
    u32add i 2 = i + 2 ∧ u32add i 1 = i + 1 ∧
    u32sub (u32sub n 1) i = n - 1 - i := by
  unfold u32add u32sub pow32
  refine ⟨?_, ?_, ?_⟩ <;> omega

/- Load-factor invariant of the modelled chained hash table. -/

theorem ht_grow_go_bound (n a d : Nat) :
    ∀ (count : Nat) (rest : List Nat),
      (ht_grow_go n a d count rest).2 ≠ [] →
      n * 2 ^ d ≤ (ht_grow_go n a d count rest).1 * a := by
  intro count rest
  induction rest generalizing count with
  | nil =>
    intro hne
    exact absurd rfl hne
  | cons c rest2 ih =>
    intro hne
    by_cases hgt : n * 2 ^ d > count * a
    · rw [ht_grow_go] at hne ⊢
      rw [if_pos hgt] at hne ⊢
      exact ih c hne
    · rw [ht_grow_go] at hne ⊢
      rw [if_neg hgt] at hne ⊢
      show n * 2 ^ d ≤ count * a
      omega

theorem ht_load_bound (t : HtDivchn) (hr : HtReachable t) :
    t.rest_counts ≠ [] →
    t.num_elts * 2 ^ t.log_alpha_d ≤ t.count * t.alpha_n := by
  induction hr with
  | init count rest alpha_n log_alpha_d =>
    intro _
    show 0 * 2 ^ log_alpha_d ≤ count * alpha_n
    rw [Nat.zero_mul]
    exact Nat.zero_le _
  | insert k hr ih =>
    rename_i t
    unfold ht_divchn_insert
    by_cases hk : k ∈ t.keys
    · rw [if_pos hk]
      exact ih
    · rw [if_neg hk]
      intro hne
      exact ht_grow_go_bound _ _ _ _ _ hne
  | remove k hr ih =>
    rename_i t
    unfold ht_divchn_remove
    by_cases hk : k ∈ t.keys
    · rw [if_pos hk]
      intro hne
      have hb := ih hne
      calc (t.num_elts - 1) * 2 ^ t.log_alpha_d
          ≤ t.num_elts * 2 ^ t.log_alpha_d :=
            Nat.mul_le_mul_right _ (Nat.sub_le _ _)
        _ ≤ t.count * t.alpha_n := hb
    · rw [if_neg hk]
      exact ih
  | delete k hr ih =>
    rename_i t
    unfold ht_divchn_delete
    by_cases hk : k ∈ t.keys
    · rw [if_pos hk]
      intro hne
      have hb := ih hne
      calc (t.num_elts - 1) * 2 ^ t.log_alpha_d
          ≤ t.num_elts * 2 ^ t.log_alpha_d :=
            Nat.mul_le_mul_right _ (Nat.sub_le _ _)
        _ ≤ t.count * t.alpha_n := hb
    · rw [if_neg hk]
      exact ih

/- Reachability of the concrete witness states. -/

theorem wheap1_push : heap_uint32_push (heap_uint32_init 2) 3 5 = some wheap1 := by
  simp [heap_uint32_push, heap_uint32_init, heap_grow, heapify_up, ht_div_uint32_insert,
    ht_div_uint32_search, wheap1]

theorem wheap1_reach : Reachable wheap1 :=
  Reachable.push 3 5 (Reachable.init 2 (by norm_num) (by norm_num)) rfl wheap1_push

theorem wheap2_push : heap_uint32_push wheap1 1 6 = some wheap2 := by
  simp [heap_uint32_push, wheap1, wheap2, heap_grow, heapify_up, ht_div_uint32_insert,
    ht_div_uint32_search, swap, elt_ptr, pty_ptr, upd_apply, cmp_pty, assocOverwrite]

theorem wheap2_reach : Reachable wheap2 :=
  Reachable.push 1 6 wheap1_reach (by simp [wheap1, ht_div_uint32_search]) wheap2_push

theorem wheapFull_push : heap_uint32_push (heap_uint32_init 1) 3 5 = some wheapFull := by
  simp [heap_uint32_push, heap_uint32_init, heap_grow, heapify_up, ht_div_uint32_insert,
    ht_div_uint32_search, wheapFull]

theorem wheapFull_reach : Reachable wheapFull :=
  Reachable.push 3 5 (Reachable.init 1 (by norm_num) (by norm_num)) rfl wheapFull_push

theorem wheapCex_push : heap_uint32_push wheap1 4 6 = some wheapCex := by
  simp [heap_uint32_push, wheap1, wheapCex, heap_grow, heapify_up,
    ht_div_uint32_insert, ht_div_uint32_search, pty_ptr, upd_apply, cmp_pty]

/-- C1: for every heap built from an empty heap by heap_push and
heap_update operations (and pops) under their documented preconditions,
repeatedly calling heap_pop until the heap is empty yields the priority
values in non-decreasing order under cmp_pty: for every pair of
consecutively popped priorities, cmp_pty of the earlier and the later one
is at most 0.  The second conjunct certifies that the drain really
empties the heap. -/
theorem C1_pop_sorted (h : Heap) (hr : Reachable h) :
    List.Chain' (fun a b : Int => cmp_pty a b ≤ 0) (popSeq h) ∧
    (popDrain h h.num_elts).1.num_elts = 0 := by
  have hv := reach_hinv h hr
  constructor
  · have hs := popDrain_sorted h.num_elts h hv
    exact List.Chain'.imp (fun a b hab => (cmp_pty_nonpos_iff a b).mpr hab) hs
  · exact popDrain_num_elts h.num_elts h (le_refl _)

/-- Witness for C1 at the concrete two-element reachable heap wheap2;
its pop sequence evaluates to the ordered list 1, 3. -/
theorem C1_pop_sorted_witness :
    (List.Chain' (fun a b : Int => cmp_pty a b ≤ 0) (popSeq wheap2) ∧
     (popDrain wheap2 wheap2.num_elts).1.num_elts = 0) ∧
    popSeq wheap2 = [1, 3] := by
  refine ⟨C1_pop_sorted wheap2 wheap2_reach, ?_⟩
  simp [popSeq, popDrain, wheap2, heap_uint32_pop, swap, elt_ptr, pty_ptr,
    ht_div_uint32_remove, ht_div_uint32_search, assocErase, upd_apply,
    heapify_down, down_last, cmp_pty, ht_div_uint32_insert, assocOverwrite]

/-- C2: every public mutating heap operation preserves the heap-order
invariant: in every reachable heap state, for every non-root slot i below
num_elts, cmp_pty of the priority at slot i and the priority at slot
(i-1)/2 is non-negative. -/
theorem C2_heap_order (h : Heap) (hr : Reachable h) :
    ∀ i, 0 < i → i < h.num_elts →
      cmp_pty (h.ptys i) (h.ptys ((i - 1) / 2)) ≥ 0 := by
  intro i hi0 hin
  rw [cmp_pty_nonneg_iff]
  exact (reach_hinv h hr).ord i hi0 hin

/-- Witness for C2 at the concrete two-element reachable heap wheap2,
evaluated at the non-root slot 1 whose parent is the root. -/
theorem C2_heap_order_witness :
    cmp_pty (wheap2.ptys 1) (wheap2.ptys ((1 - 1) / 2)) ≥ 0 ∧
    wheap2.ptys 1 = 3 ∧ wheap2.ptys 0 = 1 := by
  refine ⟨C2_heap_order wheap2 wheap2_reach 1 (by norm_num) (by norm_num [wheap2]), ?_, ?_⟩
  · simp [wheap2, upd_apply]
  · simp [wheap2, upd_apply]

/-- C3: every swap of two distinct heap slots i and j exchanges the
priority and element blocks of the two slots and issues the two
side-index upserts mapping the element newly at i to i and the element
newly at j to j; consequently, in every reachable heap state the
side-index maps each resident element byte-pattern to the unique slot
holding it, and no element is indexed twice (the key list of the table
has no duplicates). -/
theorem C3_side_index (h : Heap) (hr : Reachable h) :
    (∀ i j : Nat, i ≠ j →
      (swap h i j).ptys i = h.ptys j ∧ (swap h i j).ptys j = h.ptys i ∧
      (swap h i j).elts i = h.elts j ∧ (swap h i j).elts j = h.elts i ∧
      (swap h i j).ht =
        ht_div_uint32_insert (ht_div_uint32_insert h.ht (h.elts j) i)
          (h.elts i) j) ∧
    (∀ i, i < h.num_elts → ht_div_uint32_search h.ht (h.elts i) = some i) ∧
    (∀ e ix, ht_div_uint32_search h.ht e = some ix →
      ix < h.num_elts ∧ h.elts ix = e) ∧
    (h.ht.map Prod.fst).Nodup := by
  have hv := reach_hinv h hr
  refine ⟨?_, hv.coh.1, ?_, hv.coh.2.2⟩
  · intro i j hij
    exact ⟨swap_ptys_fst h hij, swap_ptys_snd h hij, swap_elts_fst h hij,
      swap_elts_snd h hij, swap_ht h hij⟩
  · intro e ix hs
    exact coh_search_some h hv.coh hs

/-- Witness for C3 at the concrete two-element reachable heap wheap2,
together with the evaluated side-index lookups of its two elements. -/
theorem C3_side_index_witness :
    ((∀ i j : Nat, i ≠ j →
      (swap wheap2 i j).ptys i = wheap2.ptys j ∧
      (swap wheap2 i j).ptys j = wheap2.ptys i ∧
      (swap wheap2 i j).elts i = wheap2.elts j ∧
      (swap wheap2 i j).elts j = wheap2.elts i ∧
      (swap wheap2 i j).ht =
        ht_div_uint32_insert (ht_div_uint32_insert wheap2.ht (wheap2.elts j) i)
          (wheap2.elts i) j) ∧
    (∀ i, i < wheap2.num_elts →
      ht_div_uint32_search wheap2.ht (wheap2.elts i) = some i) ∧
    (∀ e ix, ht_div_uint32_search wheap2.ht e = some ix →
      ix < wheap2.num_elts ∧ wheap2.elts ix = e) ∧
    (wheap2.ht.map Prod.fst).Nodup) ∧
    ht_div_uint32_search wheap2.ht 6 = some 0 ∧
    ht_div_uint32_search wheap2.ht 5 = some 1 := by
  refine ⟨C3_side_index wheap2 wheap2_reach, ?_, ?_⟩
  · simp [wheap2, ht_div_uint32_search]
  · simp [wheap2, ht_div_uint32_search]

/-- Counterexample to C4 as stated: at the reachable one-element heap
wheap1, updating element 5 to its current priority 3 performs the
priority overwrite and both sift passes, but neither pass performs any
swap, so it is false that exactly one of the two sift passes performs
actual motion. -/
theorem C4_counterexample :
    Reachable wheap1 ∧
    ht_div_uint32_search wheap1.ht 5 = some 0 ∧
    heap_uint32_update wheap1 3 5 =
      some (heapify_down (heapify_up { wheap1 with ptys := upd wheap1.ptys 0 3 } 0) 0) ∧
    heapify_up_swaps { wheap1 with ptys := upd wheap1.ptys 0 3 } 0 = 0 ∧
    heapify_down_swaps (heapify_up { wheap1 with ptys := upd wheap1.ptys 0 3 } 0) 0 = 0 := by
  refine ⟨wheap1_reach, ?_, ?_, ?_, ?_⟩
  · simp [wheap1, ht_div_uint32_search]
  · simp [heap_uint32_update, wheap1, ht_div_uint32_search]
  · simp [heapify_up_swaps]
  · simp [heapify_up, heapify_down_swaps, down_last_swaps, wheap1, upd_apply,
      pty_ptr, cmp_pty]

/-- C4 (amended): for every reachable heap state whose side-index maps
element e to slot I, heap_update overwrites the priority at slot I with
the new priority, then performs sift-up from I followed by sift-down
from I, and at most one of the two sift passes performs actual motion
(at least one swap of slots). -/
theorem C4_update_sifts (h : Heap) (p : Int) (e : Nat) (ix : Nat)
    (hr : Reachable h) (hs : ht_div_uint32_search h.ht e = some ix) :
    heap_uint32_update h p e =
      some (heapify_down (heapify_up { h with ptys := upd h.ptys ix p } ix) ix) ∧
    ¬ (0 < heapify_up_swaps { h with ptys := upd h.ptys ix p } ix ∧
       0 < heapify_down_swaps (heapify_up { h with ptys := upd h.ptys ix p } ix) ix) := by
  have hv := reach_hinv h hr
  refine ⟨update_eq h p e ix hs, ?_⟩
  rintro ⟨hup, hdown⟩
  have hixn : ix < h.num_elts := (coh_search_some h hv.coh hs).1
  obtain ⟨hz, hcmp⟩ := heapify_up_swaps_pos _ ix hup
  have hix0 : 0 < ix := Nat.pos_of_ne_zero hz
  have hlt2 : p < h.ptys ((ix - 1) / 2) := by
    simp only [pty_ptr] at hcmp
    rw [cmp_pty_pos_iff] at hcmp
    have hred : upd h.ptys ix p ix < upd h.ptys ix p ((ix - 1) / 2) := hcmp
    rwa [upd_same, upd_ne _ _ _ (by
      have := parent_lt hix0
      omega : ¬ (ix - 1) / 2 = ix)] at hred
  have hui : UpInv { h with ptys := upd h.ptys ix p } ix :=
    upInv_overwrite h _ ix p rfl rfl hv.ord hixn hix0 hlt2
  have hOrdUp : HeapOrd (heapify_up { h with ptys := upd h.ptys ix p } ix) :=
    heapify_up_ord _ ix hixn hui
  rw [heapify_down_swaps_of_ord _ ix hOrdUp] at hdown
  omega

/-- Witness for the amended C4 at the reachable one-element heap wheap1:
updating element 5 to priority 7 moves nothing in the sift-up pass and
nothing in the sift-down pass, so at most one pass moves. -/
theorem C4_update_sifts_witness :
    heap_uint32_update wheap1 7 5 =
      some (heapify_down (heapify_up { wheap1 with ptys := upd wheap1.ptys 0 7 } 0) 0) ∧
    ¬ (0 < heapify_up_swaps { wheap1 with ptys := upd wheap1.ptys 0 7 } 0 ∧
       0 < heapify_down_swaps (heapify_up { wheap1 with ptys := upd wheap1.ptys 0 7 } 0) 0) :=
  C4_update_sifts wheap1 7 5 0 wheap1_reach (by simp [wheap1, ht_div_uint32_search])

/-- Counterexample to C5 as stated: wheap1 is a reachable heap holding
the pair (3, 5); element 6 is absent and the heap is not at its capacity
limit, yet pushing (4, 6) and then popping returns the pair (3, 5), not
(4, 6): pop returns the minimum of the heap, not the element just
pushed. -/
theorem C5_counterexample :
    Reachable wheap1 ∧
    ht_div_uint32_search wheap1.ht 6 = none ∧
    (wheap1.num_elts = wheap1.heap_size → wheap1.heap_size < wheap1.heap_max_size) ∧
    (heap_uint32_push wheap1 4 6).map
      (fun hb => ((heap_uint32_pop hb 0 0).2.1, (heap_uint32_pop hb 0 0).2.2)) =
      some ((3 : Int), (5 : Nat)) ∧
    ¬ ((3 : Int) = 4 ∧ (5 : Nat) = 6) := by
  refine ⟨wheap1_reach, ?_, ?_, ?_, ?_⟩
  · simp [wheap1, ht_div_uint32_search]
  · intro hc
    simp [wheap1] at hc
  · rw [wheapCex_push]
    refine Eq.trans rfl ?_
    show some ((heap_uint32_pop wheapCex 0 0).2.1, (heap_uint32_pop wheapCex 0 0).2.2) =
      some ((3 : Int), (5 : Nat))
    have hp1 : (heap_uint32_pop wheapCex 0 0).2.1 = 3 := by
      simp [heap_uint32_pop, wheapCex, swap, elt_ptr, pty_ptr, upd_apply,
        ht_div_uint32_remove, ht_div_uint32_search, assocErase, heapify_down,
        down_last, cmp_pty, ht_div_uint32_insert, assocOverwrite]
    have hp2 : (heap_uint32_pop wheapCex 0 0).2.2 = 5 := by
      simp [heap_uint32_pop, wheapCex, swap, elt_ptr, pty_ptr, upd_apply,
        ht_div_uint32_remove, ht_div_uint32_search, assocErase, heapify_down,
        down_last, cmp_pty, ht_div_uint32_insert, assocOverwrite]
    rw [hp1, hp2]
  · simp

/-- C5 (amended): for every reachable heap state and every pair (p, e)
such that no element byte-equal to e is present, the heap is not at its
fatal capacity limit, and p compares strictly below every resident
priority under cmp_pty, heap_push of (p, e) immediately followed by
heap_pop yields back exactly p and e and leaves num_elts at its value
before the push. -/
theorem C5_push_pop (h : Heap) (p pb : Int) (e eb : Nat) (hr : Reachable h)
    (_hab : ht_div_uint32_search h.ht e = none)
    (hcap : h.num_elts = h.heap_size → h.heap_size < h.heap_max_size)
    (hmin : ∀ i, i < h.num_elts → cmp_pty p (h.ptys i) < 0) :
    ∃ h1, heap_uint32_push h p e = some h1 ∧
      (heap_uint32_pop h1 pb eb).2.1 = p ∧
      (heap_uint32_pop h1 pb eb).2.2 = e ∧
      (heap_uint32_pop h1 pb eb).1.num_elts = h.num_elts := by
  have hv := reach_hinv h hr
  have hmid : ∃ hm, (if h.heap_size = h.num_elts then heap_grow h else some h) = some hm ∧
      hm.ptys = h.ptys ∧ hm.elts = h.elts ∧ hm.num_elts = h.num_elts := by
    by_cases hc : h.heap_size = h.num_elts
    · rw [if_pos hc]
      unfold heap_grow
      rw [if_pos (hcap hc.symm)]
      refine ⟨_, rfl, ?_, ?_, ?_⟩ <;> (split_ifs <;> rfl)
    · rw [if_neg hc]
      exact ⟨h, rfl, rfl, rfl, rfl⟩
  obtain ⟨hm, hmid, m1, m2, m4⟩ := hmid
  refine ⟨_, push_eq h p e hm hmid, ?_, ?_, ?_⟩
  all_goals {
    have hminlt : ∀ k, k < ({ hm with
        elts := upd hm.elts hm.num_elts e,
        ptys := upd hm.ptys hm.num_elts p,
        ht := ht_div_uint32_insert hm.ht e hm.num_elts,
        num_elts := hm.num_elts + 1 } : Heap).num_elts → k ≠ hm.num_elts →
        ({ hm with
        elts := upd hm.elts hm.num_elts e,
        ptys := upd hm.ptys hm.num_elts p,
        ht := ht_div_uint32_insert hm.ht e hm.num_elts,
        num_elts := hm.num_elts + 1 } : Heap).ptys hm.num_elts <
        ({ hm with
        elts := upd hm.elts hm.num_elts e,
        ptys := upd hm.ptys hm.num_elts p,
        ht := ht_div_uint32_insert hm.ht e hm.num_elts,
        num_elts := hm.num_elts + 1 } : Heap).ptys k := by
      intro k hk hkn
      have hk2 : k < hm.num_elts + 1 := hk
      show upd hm.ptys hm.num_elts p hm.num_elts < upd hm.ptys hm.num_elts p k
      rw [upd_same, upd_ne _ _ _ hkn]
      have hmk := hmin k (by omega)
      rw [cmp_pty_neg_iff] at hmk
      rw [m1]
      exact hmk
    have hm2 := heapify_up_min _ hm.num_elts
      (by show hm.num_elts < hm.num_elts + 1; omega) hminlt
    have hne : ¬ (heapify_up ({ hm with
        elts := upd hm.elts hm.num_elts e,
        ptys := upd hm.ptys hm.num_elts p,
        ht := ht_div_uint32_insert hm.ht e hm.num_elts,
        num_elts := hm.num_elts + 1 } : Heap) hm.num_elts).num_elts = 0 := by
      rw [heapify_up_num_elts]
      show ¬ hm.num_elts + 1 = 0
      omega
    first
    | (rw [(pop_out _ pb eb hne).1, hm2.1]
       show upd hm.ptys hm.num_elts p hm.num_elts = p
       rw [upd_same])
    | (rw [(pop_out _ pb eb hne).2, hm2.2]
       show upd hm.elts hm.num_elts e hm.num_elts = e
       rw [upd_same])
    | (rw [pop_num_elts _ pb eb hne, heapify_up_num_elts]
       show hm.num_elts + 1 - 1 = h.num_elts
       omega)
  }

/-- Witness for the amended C5: pushing (0, 7) onto the reachable
one-element heap wheap1 (whose only priority is 3) and popping returns
(0, 7) and restores num_elts to 1. -/
theorem C5_push_pop_witness :
    ∃ h1, heap_uint32_push wheap1 0 7 = some h1 ∧
      (heap_uint32_pop h1 9 9).2.1 = 0 ∧
      (heap_uint32_pop h1 9 9).2.2 = 7 ∧
      (heap_uint32_pop h1 9 9).1.num_elts = wheap1.num_elts :=
  C5_push_pop wheap1 0 9 7 9 wheap1_reach
    (by simp [wheap1, ht_div_uint32_search])
    (by intro hc; simp [wheap1] at hc)
    (by
      intro i hi
      have hi2 : i < 1 := hi
      have hi0 : i = 0 := by omega
      subst hi0
      show cmp_pty 0 (wheap1.ptys 0) < 0
      simp [wheap1, upd_apply, cmp_pty])

/-- C6: when heap_push is called on a reachable heap with num_elts equal
to count (heap_size), the capacity is set to count + count if that does
not exceed the maximum (and hence cannot overflow uint32, the maximum
being 2^32 - 2); otherwise it is clamped to the maximum when count is
still below it; otherwise the push is fatal.  Moreover num_elts <= count
<= count_max holds in every reachable state. -/
theorem C6_growth (h : Heap) (p : Int) (e : Nat) (hr : Reachable h)
    (hfull : h.num_elts = h.heap_size) :
    (h.heap_size + h.heap_size ≤ h.heap_max_size →
      (heap_uint32_push h p e).map (fun x => x.heap_size) =
        some (h.heap_size + h.heap_size)) ∧
    (h.heap_max_size < h.heap_size + h.heap_size →
      h.heap_size < h.heap_max_size →
      (heap_uint32_push h p e).map (fun x => x.heap_size) =
        some h.heap_max_size) ∧
    (h.heap_size = h.heap_max_size → heap_uint32_push h p e = none) ∧
    h.num_elts ≤ h.heap_size ∧ h.heap_size ≤ h.heap_max_size ∧
    h.heap_max_size = 2 ^ 32 - 2 := by
  have hv := reach_hinv h hr
  refine ⟨?_, ?_, ?_, hv.ne_le, hv.size_le, hv.maxsz⟩
  · intro hle
    have hpos := hv.size_pos
    have hlt : h.heap_size < h.heap_max_size := by omega
    have hgrow : heap_grow h = some { h with heap_size := h.heap_size * 2 } := by
      unfold heap_grow
      rw [if_pos hlt, if_neg (by omega)]
    rw [push_eq h p e _ (by rw [if_pos hfull.symm]; exact hgrow)]
    show some ((heapify_up _ _).heap_size) = some (h.heap_size + h.heap_size)
    rw [heapify_up_heap_size]
    refine congrArg some ?_
    show h.heap_size * 2 = h.heap_size + h.heap_size
    omega
  · intro hbig hlt
    have hgrow : heap_grow h = some { h with heap_size := h.heap_max_size } := by
      unfold heap_grow
      rw [if_pos hlt, if_pos (by omega)]
    rw [push_eq h p e _ (by rw [if_pos hfull.symm]; exact hgrow)]
    show some ((heapify_up _ _).heap_size) = some h.heap_max_size
    rw [heapify_up_heap_size]
  · intro heq
    have hgrow : heap_grow h = none := by
      unfold heap_grow
      rw [if_neg (by omega)]
    exact push_eq_none h p e (by rw [if_pos hfull.symm]; exact hgrow)

/-- Witness for C6 at the reachable full heap wheapFull (capacity 1,
one element): the trichotomy instance, where doubling applies. -/
theorem C6_growth_witness :
    (wheapFull.heap_size + wheapFull.heap_size ≤ wheapFull.heap_max_size →
      (heap_uint32_push wheapFull 1 6).map (fun x => x.heap_size) =
        some (wheapFull.heap_size + wheapFull.heap_size)) ∧
    (wheapFull.heap_max_size < wheapFull.heap_size + wheapFull.heap_size →
      wheapFull.heap_size < wheapFull.heap_max_size →
      (heap_uint32_push wheapFull 1 6).map (fun x => x.heap_size) =
        some wheapFull.heap_max_size) ∧
    (wheapFull.heap_size = wheapFull.heap_max_size →
      heap_uint32_push wheapFull 1 6 = none) ∧
    wheapFull.num_elts ≤ wheapFull.heap_size ∧
    wheapFull.heap_size ≤ wheapFull.heap_max_size ∧
    wheapFull.heap_max_size = 2 ^ 32 - 2 :=
  C6_growth wheapFull 1 6 wheapFull_reach rfl

/-- C7: popping an empty heap is not an error and changes nothing: the
returned state is the input state (count, num_elts, the priority and
element regions, and the side-index all unchanged), and the memory
blocks passed as the out pty and elt parameters are returned
unmodified. -/
theorem C7_pop_empty (h : Heap) (p : Int) (e : Nat) (h0 : h.num_elts = 0) :
    heap_uint32_pop h p e = (h, p, e) := by
  unfold heap_uint32_pop
  rw [if_pos h0]

/-- Witness for C7 at a freshly initialized (empty) heap with out
buffers holding 7 and 9. -/
theorem C7_pop_empty_witness :
    heap_uint32_pop (heap_uint32_init 3) 7 9 = (heap_uint32_init 3, 7, 9) :=
  C7_pop_empty (heap_uint32_init 3) 7 9 rfl

/-- C8: for every chained-hash-table state reachable by insert, remove
and delete, whenever the current prime is not the maximum representable
one (the remaining prime sequence is nonempty), the integer load-factor
bound num_elts * 2^log_alpha_d <= count * alpha_n holds. -/
theorem C8_load_factor (t : HtDivchn) (hr : HtReachable t)
    (hne : t.rest_counts ≠ []) :
    t.num_elts * 2 ^ t.log_alpha_d ≤ t.count * t.alpha_n :=
  ht_load_bound t hr hne

/-- Witness for C8: inserting one key into a table initialized with
prime 2, remaining primes 5 and 11, and load bound 1/4 forces one growth
step to prime 5, after which the bound holds and the maximum prime is
not reached. -/
theorem C8_load_factor_witness :
    (ht_divchn_insert ⟨2, [5, 11], 0, 1, 2, []⟩ 42).num_elts *
        2 ^ (ht_divchn_insert ⟨2, [5, 11], 0, 1, 2, []⟩ 42).log_alpha_d ≤
      (ht_divchn_insert ⟨2, [5, 11], 0, 1, 2, []⟩ 42).count *
        (ht_divchn_insert ⟨2, [5, 11], 0, 1, 2, []⟩ 42).alpha_n ∧
    (ht_divchn_insert ⟨2, [5, 11], 0, 1, 2, []⟩ 42).count = 5 ∧
    (ht_divchn_insert ⟨2, [5, 11], 0, 1, 2, []⟩ 42).rest_counts = [11] :=
  ⟨C8_load_factor _ (HtReachable.insert 42 (HtReachable.init 2 [5, 11] 1 2))
    (by decide), by decide, by decide⟩

/-- C9: heap_search never mutates the heap: for every heap state and
every element argument, the state the function leaves behind is the
input state, with count (heap_size), num_elts, the priority and element
regions, and the side-index table all unchanged. -/
theorem C9_search_pure (h : Heap) (e : Nat) :
    (heap_uint32_search h e).1 = h ∧
    (heap_uint32_search h e).1.heap_size = h.heap_size ∧
    (heap_uint32_search h e).1.num_elts = h.num_elts ∧
    (heap_uint32_search h e).1.ptys = h.ptys ∧
    (heap_uint32_search h e).1.elts = h.elts ∧
    (heap_uint32_search h e).1.ht = h.ht := by
  unfold heap_uint32_search
  cases ht_div_uint32_search h.ht e <;> exact ⟨rfl, rfl, rfl, rfl, rfl, rfl⟩

/-- C10: under the assert precondition of heapify_down (0 < num_elts,
i < num_elts) and the initialization bound num_elts <= 2^32 - 2, the
uint32 arithmetic of the loop guard i + 2 <= num_elts - 1 - i (and of
the final check i + 1 == num_elts - 1 - i) never wraps: it agrees with
exact arithmetic; and every slot index accessed by sift-down along its
executed path is strictly below num_elts. -/
theorem C10_down_bounds (h : Heap) (i : Nat) (h1 : 0 < h.num_elts)
    (h2 : h.num_elts ≤ 2 ^ 32 - 2) (h3 : i < h.num_elts) :
    (u32add i 2 = i + 2 ∧ u32add i 1 = i + 1 ∧
     u32sub (u32sub h.num_elts 1) i = h.num_elts - 1 - i) ∧
    (∀ j ∈ heapify_down_accesses h i, j < h.num_elts) :=
  ⟨down_guard_exact h.num_elts i h1 h2 h3, down_accesses_bound h i h3⟩

/-- Witness for C10 at the concrete two-element heap wheap2 with
sift-down from the root, whose access list evaluates to the two slots
0 and 1. -/
theorem C10_down_bounds_witness :
    ((u32add 0 2 = 0 + 2 ∧ u32add 0 1 = 0 + 1 ∧
      u32sub (u32sub wheap2.num_elts 1) 0 = wheap2.num_elts - 1 - 0) ∧
     (∀ j ∈ heapify_down_accesses wheap2 0, j < wheap2.num_elts)) ∧
    heapify_down_accesses wheap2 0 = [0, 1] := by
  refine ⟨C10_down_bounds wheap2 0 (by norm_num [wheap2]) (by norm_num [wheap2])
    (by norm_num [wheap2]), ?_⟩
  simp [heapify_down_accesses, down_last_accesses, wheap2, pty_ptr, upd_apply, cmp_pty]
